import Mathlib

/-!
Verification of the grading-progress notification bot
(`utas_slack_bot.py` and collaborators).

The Python sources are shallowly embedded below:

* Python `dict` (insertion ordered, unique keys, first-match lookup) is
  modelled by an association list `Dict α = List (String × α)` with
  `dictGet?` / `dictInsert` / `dictKeys`.
* Python `str` keys are Lean `String`s; `str(n)` on an integer is `toDecStr`,
  `int(s)` on a decimal string is `strVal`, and the custom key function
  `lambda a: (len(a), tuple(a))` used by `max_int_num` is `strKeyLt`
  (length first, then pointwise code-point comparison).
* The mutable locals of `check_assignment_updates` become the explicit
  state record `TrackState`, threaded through `List.foldl`.
* Fallible calls (Slack delivery, message building, `dict[...]` indexing)
  return `Option`/`Except`; a propagating Python exception is `Except.error`.
-/

/-! ### Strings as decimal numerals -/

/-- Numeric value of a decimal digit character (Python `ord(c) - ord('0')`
composed into `int(...)`). -/
def charDigit (c : Char) : Nat := c.toNat - 48

/-- The character of a decimal digit (`str(...)` building block). -/
def decChar (d : Nat) : Char := Char.ofNat (48 + d)

/-- Value of a decimal string, as Python `int(s)` computes it on a canonical
decimal numeral. -/
def strVal (s : String) : Nat :=
  s.data.foldl (fun acc c => 10 * acc + charDigit c) 0

/-- Value of a most-significant-first digit list. -/
def valD (l : List Nat) : Nat := l.foldl (fun acc d => 10 * acc + d) 0

/-- Digit list of `n`, most significant first, fuel-based so that it reduces
definitionally.  With `fuel ≥ n` the result is the full numeral of `n`. -/
def natDigitsAux : Nat → Nat → List Nat
  | _, 0 => []
  | 0, _ + 1 => []
  | fuel + 1, n + 1 => natDigitsAux fuel ((n + 1) / 10) ++ [(n + 1) % 10]

/-- Digit list of `n`, most significant first (empty for `0`). -/
def natDigits (n : Nat) : List Nat := natDigitsAux n n

/-- Python `str(n)` for a natural number. -/
def toDecStr (n : Nat) : String :=
  if n = 0 then "0" else ⟨(natDigits n).map decChar⟩

/-- Pointwise comparison of character lists by code point — Python tuple
comparison `tuple(a) < tuple(b)`. -/
def charListLt : List Char → List Char → Bool
  | _, [] => false
  | [], _ :: _ => true
  | a :: as, b :: bs =>
    if a.toNat < b.toNat then true
    else if b.toNat < a.toNat then false
    else charListLt as bs

/-- The strict order underlying `max_int_num`'s key
`lambda a: (len(a), tuple(a))`: compare lengths first, then the character
tuples pointwise. -/
def strKeyLt (a b : String) : Bool :=
  decide (a.data.length < b.data.length) ||
    (a.data.length == b.data.length && charListLt a.data b.data)

/-- `max_int_num(nums, default=dflt)` from `check_assignment_updates`:
Python `max` with the key above — scan left to right, replacing the incumbent
whenever a strictly key-greater element appears; `dflt` is returned for an
empty collection. -/
def max_int_num (nums : List String) (dflt : String) : String :=
  match nums with
  | [] => dflt
  | x :: xs => xs.foldl (fun acc y => if strKeyLt acc y then y else acc) x

/-- Pointwise comparison of digit lists, the numeric shadow of
`charListLt` on mapped digit characters. -/
def natLexLt : List Nat → List Nat → Bool
  | _, [] => false
  | [], _ :: _ => true
  | a :: as, b :: bs =>
    if a < b then true
    else if b < a then false
    else natLexLt as bs

/-! ### Python dicts as association lists -/

/-- Insertion-ordered string-keyed map, the shape of every Python dict the
tracker manipulates. -/
abbrev Dict (α : Type) := List (String × α)

/-- `d.get(k)` / `k in d`: first entry whose key equals `k`. -/
def dictGet? {α : Type} : Dict α → String → Option α
  | [], _ => none
  | (k2, v2) :: rest, k => if k2 = k then some v2 else dictGet? rest k

/-- `d[k] = v`: replace the value at an existing key in place, otherwise
append a new entry (Python dict assignment preserves insertion order). -/
def dictInsert {α : Type} : Dict α → String → α → Dict α
  | [], k, v => [(k, v)]
  | (k2, v2) :: rest, k, v =>
    if k2 = k then (k2, v) :: rest else (k2, v2) :: dictInsert rest k v

/-- `list(d.keys())`. -/
def dictKeys {α : Type} (d : Dict α) : List String := d.map Prod.fst

/-- `k in d`. -/
def dictMem {α : Type} (d : Dict α) (k : String) : Bool :=
  (dictGet? d k).isSome

/-! ### The data model of `check_assignment_updates` -/

/-- One per-submission history record `{'status': ..., 'grader': ...}`.
`grader = none` is Python `None`. -/
structure StatusRec where
  status : String
  grader : Option String
deriving DecidableEq

/-- The sentinel `{'status': 'unknown', 'grader': 'unknown'}` returned by
`get_last_status` when a submission has no history. -/
def NO_STATUS : StatusRec := ⟨"unknown", some "unknown"⟩

/-- One live submission as fetched from codePost.  `id` is the already
stringified `str(submission.id)`. -/
structure Submission where
  id : String
  isFinalized : Bool
  grader : Option String
deriving DecidableEq

/-- The per-assignment aggregate stored in the cache: the four counts, the
run log and the submission history (`graders_finalized` is popped off by the
caller before the aggregate is stored, so it is not a field here; the tracker
returns it separately). -/
structure AggData where
  total : Nat
  finalized : Nat
  drafts : Nat
  unclaimed : Nat
  runs : Dict String
  submissions : Dict (Dict StatusRec)
deriving DecidableEq

/-- Full result of `check_assignment_updates`: the returned `changed` flag,
the new aggregate, and the transient `graders_finalized` set. -/
structure TrackOut where
  changed : Bool
  data : AggData
  graders_finalized : List (Option String)
deriving DecidableEq

/-- `get_last_status(submission_id)`: the status at the key-maximal run index
of the submission's history, or the sentinel when there is no history.
The inner lookup's default is unreachable: the maximal key of a non-empty
key list is itself one of the keys. -/
def get_last_status (submissions : Dict (Dict StatusRec))
    (submission_id : String) : StatusRec :=
  let submission_data := (dictGet? submissions submission_id).getD []
  if submission_data.isEmpty then NO_STATUS
  else
    let max_key := max_int_num (dictKeys submission_data) ""
    (dictGet? submission_data max_key).getD NO_STATUS

/-- `save_status(submission_id, status)`: create the submission's history
dict if missing, then write `status` at the current run index.  (The
`updated_status = True` side effect is applied at the call sites.) -/
def save_status (submissions : Dict (Dict StatusRec)) (index : String)
    (submission_id : String) (status : StatusRec) : Dict (Dict StatusRec) :=
  dictInsert submissions submission_id
    (dictInsert ((dictGet? submissions submission_id).getD []) index status)

/-- Python `set.add`. -/
def setAdd (l : List (Option String)) (g : Option String) :
    List (Option String) :=
  if l.contains g then l else l ++ [g]

/-- The mutable locals of `check_assignment_updates`, threaded through the
two loops as explicit state. -/
structure TrackState where
  submissions : Dict (Dict StatusRec)
  updated_status : Bool
  deleted : List String
  num_total : Nat
  num_finalized : Nat
  num_drafts : Nat
  num_unclaimed : Nat
  graders_finalized : List (Option String)
deriving DecidableEq

/-- The body of `for submission in assignment.list_submissions()` in
`check_assignment_updates`. -/
def processSubmission (index : String) (st : TrackState) (s : Submission) :
    TrackState :=
  let sid := s.id
  let deleted := st.deleted.filter (fun x => x ≠ sid)
  let last := get_last_status st.submissions sid
  let num_total := st.num_total + 1
  let (num_finalized, num_drafts, num_unclaimed, status, graders) :=
    if s.isFinalized then
      (st.num_finalized + 1, st.num_drafts, st.num_unclaimed, "finalized",
        if last.status == "finalized" then st.graders_finalized
        else setAdd st.graders_finalized s.grader)
    else if s.grader.isSome then
      (st.num_finalized, st.num_drafts + 1, st.num_unclaimed, "draft",
        st.graders_finalized)
    else
      (st.num_finalized, st.num_drafts, st.num_unclaimed + 1, "unclaimed",
        st.graders_finalized)
  let current : StatusRec := ⟨status, s.grader⟩
  if last = current then
    { st with
      deleted := deleted,
      num_total := num_total,
      num_finalized := num_finalized,
      num_drafts := num_drafts,
      num_unclaimed := num_unclaimed,
      graders_finalized := graders }
  else
    { st with
      deleted := deleted,
      num_total := num_total,
      num_finalized := num_finalized,
      num_drafts := num_drafts,
      num_unclaimed := num_unclaimed,
      graders_finalized := graders,
      submissions := save_status st.submissions index sid current,
      updated_status := true }

/-- The body of `for submission_id in deleted` in
`check_assignment_updates`. -/
def markDeleted (index : String) (st : TrackState) (sid : String) :
    TrackState :=
  if !dictMem st.submissions sid then st
  else
    let last := get_last_status st.submissions sid
    let current : StatusRec := ⟨"deleted", none⟩
    if last = current then st
    else
      { st with
        submissions := save_status st.submissions index sid current,
        updated_status := true }

/-- `index = int(max_int_num(runs.keys(), default=0)) + 1` for the cached
branch of `check_assignment_updates` (`strVal "0" = 0` plays the `default=0`
role for an empty run log). -/
def nextIndexNat (runs : Dict String) : Nat :=
  strVal (max_int_num (dictKeys runs) "0") + 1

/-- Both loops of `check_assignment_updates`, from initialisation through the
deletion pass; returns the final state together with the stringified run
index in use. -/
def trackRun (subs : List Submission) (cached : Option AggData) :
    TrackState × String :=
  let (submissions0, deleted0, indexN) :=
    match cached with
    | some c => (c.submissions, dictKeys c.submissions, nextIndexNat c.runs)
    | none => ([], [], 1)
  let index := toDecStr indexN
  let st0 : TrackState := ⟨submissions0, false, deleted0, 0, 0, 0, 0, []⟩
  let st1 := subs.foldl (processSubmission index) st0
  let st2 := st1.deleted.foldl (markDeleted index) st1
  (st2, index)

/-- `check_assignment_updates(assignment, timestamp_key, cached)`:
run both loops, conditionally log the run, assemble the data dict and compute
the returned `changed` flag exactly as lines 247–272 of the source do. -/
def check_assignment_updates (subs : List Submission)
    (timestamp_key : String) (cached : Option AggData) : TrackOut :=
  let st := (trackRun subs cached).1
  let index := (trackRun subs cached).2
  let runs0 := match cached with | some c => c.runs | none => []
  let runs :=
    if st.updated_status then dictInsert runs0 index timestamp_key else runs0
  let data : AggData :=
    ⟨st.num_total, st.num_finalized, st.num_drafts, st.num_unclaimed,
      runs, st.submissions⟩
  let changed :=
    if st.updated_status then true
    else if st.num_total == 0 || st.num_finalized == 0 then false
    else
      match cached with
      | none => true
      | some c =>
        !(c.total == data.total) || !(c.finalized == data.finalized) ||
          !(c.drafts == data.drafts) || !(c.unclaimed == data.unclaimed)
  ⟨changed, data, st.graders_finalized⟩

/-- The `updated_status` flag a call leaves behind: true exactly when some
submission-history write happened during the call. -/
def trackWrote (subs : List Submission) (cached : Option AggData) : Bool :=
  (trackRun subs cached).1.updated_status

/-! ### The course reconciliation loop -/

/-- One configured assignment as handed over by the config reader
(`{'name': ..., 'valid_date_range': ...}`). -/
structure ConfigAssignment where
  name : String
  valid_date_range : Bool
deriving DecidableEq

/-- One live assignment of a codePost course: its name and the result of
`list_submissions()`. -/
structure LiveAssignment where
  name : String
  submissions : List Submission
deriving DecidableEq

/-- `grader[:-len('@princeton.edu')]` (Python slicing is total: a short
string yields the empty string). -/
def stripDomain (g : String) : String :=
  ⟨g.data.take (g.data.length - 14)⟩

/-- `_build_notification_msg(**kwargs)`.  The `{done:.2%}` float field of the
template is abstracted away (no claim depends on the message text); what is
kept is exactly the control flow: formatting always succeeds, the
graders-finalized suffix is appended when the set is non-empty, and a `None`
grader in the set makes the slicing `grader[:-...]` raise a `TypeError`,
modelled as `Except.error`. -/
def build_notification_msg (assignment : String) (finalized drafts : Nat)
    (unclaimed : Int) (graders_finalized : List (Option String)) :
    Except String String :=
  let msg := s!"*{assignment}*: {finalized} finalized, " ++
    s!"{drafts} drafts, {unclaimed} left to grade"
  if graders_finalized.isEmpty then Except.ok msg
  else
    match graders_finalized.mapM (fun g =>
        match g with
        | none => Except.error "TypeError: NoneType is not subscriptable"
        | some name => Except.ok ("`" ++ stripDomain name ++ "`")) with
    | Except.error e => Except.error e
    | Except.ok graders =>
      Except.ok (msg ++ "\nGraders who recently finalized: " ++
        String.intercalate ", " graders)

/-- The assignment loop of `check_course_updates`.  `send` is the messaging
collaborator (returns the Slack error, or `none` on success), `labels`
supplies the `now()` timestamp of the `k`-th tracker invocation, and the
accumulator mirrors the function's locals `data` / `changed` / `errors`.
An `Except.error` is a propagating Python exception. -/
def courseGo (send : String → Option String)
    (course_assignments : Dict (List Submission)) (labels : Nat → String) :
    List ConfigAssignment → Dict AggData → Bool → List String → Nat →
    Except String (Dict AggData × Bool × List String)
  | [], data, changed, errors, _ => Except.ok (data, changed, errors)
  | a :: rest, data, changed, errors, k =>
    if !a.valid_date_range then
      courseGo send course_assignments labels rest data changed errors k
    else
      match dictGet? course_assignments a.name with
      | none =>
        courseGo send course_assignments labels rest data changed
          (errors ++
            ["Course does not have an assignment called " ++ a.name]) k
      | some subs =>
        let assignment_cache := dictGet? data a.name
        let out := check_assignment_updates subs (labels k) assignment_cache
        let data2 := dictInsert data a.name out.data
        if !out.changed then
          courseGo send course_assignments labels rest data2 changed errors
            (k + 1)
        else
          let unclaimed : Int :=
            (out.data.total : Int) -
              ((out.data.finalized : Int) + (out.data.drafts : Int))
          match build_notification_msg a.name out.data.finalized
              out.data.drafts unclaimed out.graders_finalized with
          | Except.error e => Except.error e
          | Except.ok msg =>
            match send msg with
            | none =>
              courseGo send course_assignments labels rest data2 true errors
                (k + 1)
            | some err =>
              courseGo send course_assignments labels rest data2 true
                (errors ++ ["Slack API error: " ++ err]) (k + 1)

/-- `check_course_updates(...)`: start from the cached course dict (or an
empty one) and run the assignment loop. -/
def check_course_updates (send : String → Option String)
    (course_assignments : Dict (List Submission))
    (assignments : List ConfigAssignment) (labels : Nat → String)
    (cached : Option (Dict AggData)) :
    Except String (Dict AggData × Bool × List String) :=
  courseGo send course_assignments labels assignments (cached.getD [])
    false [] 0

/-- A live codePost course (only its assignment list is consumed). -/
structure Course where
  assignments : List LiveAssignment

/-- One validated config course (`course`, `period`, `channel`,
`assignments`). -/
structure CourseInfo where
  course : String
  period : String
  channel : String
  assignments : List ConfigAssignment

/-- `{a.name: a for a in course.assignments}`. -/
def courseAssignmentsDict (l : List LiveAssignment) :
    Dict (List Submission) :=
  l.foldl (fun d a => dictInsert d a.name a.submissions) []

/-- The course loop of `process_courses`.  `lookup` is
`codepost.course.list_available(name=..., period=...)`; a missing channel id
is the `channels[...]` `KeyError`; `labels i` supplies the timestamps of the
`i`-th course's tracker calls. -/
def processGo (lookup : String → String → List Course)
    (send : String → String → Option String) (labels : Nat → Nat → String)
    (channels : Dict String) :
    List (String × CourseInfo) → Nat → Dict (Dict AggData) → Bool →
    List String → Except String (Dict (Dict AggData) × Bool × List String)
  | [], _, data, changed, errors => Except.ok (data, changed, errors)
  | (course_period, ci) :: rest, i, data, changed, errors =>
    match lookup ci.course ci.period with
    | [] =>
      processGo lookup send labels channels rest (i + 1) data changed
        (errors ++ ["Course could not be found: " ++ course_period])
    | course :: _ =>
      match dictGet? channels ci.channel with
      | none => Except.error ("KeyError: " ++ ci.channel)
      | some channel_id =>
        let course_cache := dictGet? data course_period
        match check_course_updates (send channel_id)
            (courseAssignmentsDict course.assignments) ci.assignments
            (labels i) course_cache with
        | Except.error e => Except.error e
        | Except.ok (course_data, course_changed, course_errors) =>
          processGo lookup send labels channels rest (i + 1)
            (dictInsert data course_period course_data)
            (changed || course_changed) (errors ++ course_errors)

/-- `process_courses(slack_client, config, channels, cached)`. -/
def process_courses (lookup : String → String → List Course)
    (send : String → String → Option String) (labels : Nat → Nat → String)
    (config : List (String × CourseInfo)) (channels : Dict String)
    (cached : Dict (Dict AggData)) :
    Except String (Dict (Dict AggData) × Bool × List String) :=
  processGo lookup send labels channels config 0 cached false []

/-- The data `main` hands to `write_data`: nothing on a propagating
exception, nothing when no course changed, and the whole merged dict (every
processed course, changed or not) otherwise. -/
def main_persisted (lookup : String → String → List Course)
    (send : String → String → Option String) (labels : Nat → Nat → String)
    (config : List (String × CourseInfo)) (channels : Dict String)
    (cached : Dict (Dict AggData)) : Option (Dict (Dict AggData)) :=
  match process_courses lookup send labels config channels cached with
  | Except.error _ => none
  | Except.ok (data, changed, _) => if changed then some data else none

/-! ### The deadline branch (modelled from the spec) -/

/-- Modelled from the spec: the per-assignment deadline state of the final
revision's reconciliation loop.  The loop itself is not among the sources
here — only its config-side collaborator (`read_config.py`, which parses
`deadline` and computes `passed_deadline`) is — so the fields follow the
spec's data model (§3, §4.2 step 5). -/
structure DeadlineAssignment where
  deadline : Option String
  passed_deadline : Bool
  sent_deadline_message : Option String
deriving DecidableEq

/-- One run's external outcomes for the deadline branch: whether the deadline
message builds, the delivery error if any, and the `now()` stamp. -/
structure DeadlineOutcome where
  buildOk : Bool
  sendErr : Option String
  nowTs : String
deriving DecidableEq

/-- Modelled from the spec: §4.2 step 5 of the reconciliation loop.  If a
deadline is configured, crossed, and no deadline message was ever sent,
build and send it; on success stamp `sent_deadline_message = now()` and mark
the course changed; on build or delivery failure record a non-fatal error
and leave the stamp unset.  Returns (new state, delivered?, errors). -/
def deadline_step (o : DeadlineOutcome) (a : DeadlineAssignment) :
    DeadlineAssignment × Bool × List String :=
  match a.deadline with
  | none => (a, false, [])
  | some _ =>
    if a.passed_deadline && a.sent_deadline_message.isNone then
      if !o.buildOk then (a, false, ["deadline message build failure"])
      else
        match o.sendErr with
        | some e => (a, false, ["Slack API error: " ++ e])
        | none =>
          ({ a with sent_deadline_message := some o.nowTs }, true, [])
    else (a, false, [])

/-- Iterated runs of the deadline branch; returns the final state and how
many runs successfully delivered the deadline message. -/
def deadline_fold (outcomes : List DeadlineOutcome)
    (a : DeadlineAssignment) : DeadlineAssignment × Nat :=
  match outcomes with
  | [] => (a, 0)
  | o :: rest =>
    let step := deadline_step o a
    let next := deadline_fold rest step.1
    (next.1, (if step.2.1 then 1 else 0) + next.2)

/-! ### Instrumentation and well-formedness used by the theorems -/

/-- The status `check_assignment_updates` classifies a live submission
with. -/
def statusOf (s : Submission) : String :=
  if s.isFinalized then "finalized"
  else if s.grader.isSome then "draft" else "unclaimed"

/-- The current status record the tracker computes for a live submission. -/
def curOf (s : Submission) : StatusRec := ⟨statusOf s, s.grader⟩

/-- The clause `any(cached.get(key, None) != data[key] for key in (...))`. -/
def countsDiffer (c : AggData) (d : AggData) : Prop :=
  c.total ≠ d.total ∨ c.finalized ≠ d.finalized ∨ c.drafts ≠ d.drafts ∨
    c.unclaimed ≠ d.unclaimed

/-- Provenance of submission-history entries across one tracker call: every
entry of the new submission dict was either written at the current run index
or carried over from the old dict under the same submission id. -/
def SubsExt (old new : Dict (Dict StatusRec)) (idx : String) : Prop :=
  ∀ p ∈ new, ∀ q ∈ p.2,
    q.1 = idx ∨ ∃ p0, p0 ∈ old ∧ p0.1 = p.1 ∧ q ∈ p0.2

/-- Well-formed aggregate with `W` logged runs: the run log's keys are
exactly the numerals `1 … W` in order, the submission dict has no duplicate
keys, and every history entry sits at a logged run index. -/
def WFAgg (W : Nat) (a : AggData) : Prop :=
  dictKeys a.runs = (List.range' 1 W).map toDecStr ∧
    (dictKeys a.submissions).Nodup ∧
    ∀ p ∈ a.submissions, ∀ q ∈ p.2, q.1 ∈ dictKeys a.runs

/-- Well-formedness of an optional cache (`none` is the first run). -/
def WFopt (W : Nat) (c : Option AggData) : Prop :=
  match c with
  | none => W = 0
  | some a => WFAgg W a

/-- The run log of an optional cache. -/
def runsOf (c : Option AggData) : Dict String :=
  match c with
  | none => []
  | some a => a.runs

/-- The submission history of an optional cache. -/
def subsOf (c : Option AggData) : Dict (Dict StatusRec) :=
  match c with
  | none => []
  | some a => a.submissions

/-- The counts-comparison clause lifted to an optional cache (`cached is
None` takes the unconditional `changed = True` branch). -/
def optCountsDiffer (c : Option AggData) (d : AggData) : Prop :=
  match c with
  | none => True
  | some a => countsDiffer a d

/-- A string that is the canonical decimal numeral of some positive
integer (no leading zeros). -/
def isCanonicalDec (s : String) : Prop := ∃ n, 1 ≤ n ∧ toDecStr n = s

/-- A sequence of tracker calls on one assignment, each fed the previous
call's aggregate; also records, per call, the run index the call allocated
and whether the call wrote any history. -/
def iterTrackTrace : List (List Submission × String) → Option AggData →
    Option AggData × List (Nat × Bool)
  | [], cached => (cached, [])
  | (subs, ts) :: rest, cached =>
    let idx :=
      match cached with
      | none => 1
      | some c => nextIndexNat c.runs
    let out := check_assignment_updates subs ts cached
    let next := iterTrackTrace rest (some out.data)
    (next.1, (idx, trackWrote subs cached) :: next.2)

/-- The run-index allocation discipline the code actually follows: each call
allocates `max(logged indices) + 1`, so the counter advances exactly on the
calls that logged a write. -/
def TraceSpec : Nat → List (Nat × Bool) → Prop
  | _, [] => True
  | W, (i, w) :: rest => i = W + 1 ∧ TraceSpec (if w then W + 1 else W) rest

/-- Run-log keys of an optional aggregate. -/
def runsKeysOpt (c : Option AggData) : List String :=
  match c with
  | none => []
  | some a => dictKeys a.runs

/-- Number of calls of a trace that logged a write. -/
def countWrites (tr : List (Nat × Bool)) : Nat := tr.countP (fun p => p.2)

/-! ### Concrete inputs and extractors used by the counterexamples -/

/-- Five live submissions, none graded: `total = 5`, `finalized = 0`. -/
def fiveUnclaimed : List Submission :=
  [⟨"1", false, none⟩, ⟨"2", false, none⟩, ⟨"3", false, none⟩,
    ⟨"4", false, none⟩, ⟨"5", false, none⟩]

/-- Error list of a course-loop result (empty on a propagating
exception). -/
def courseErrors (e : Except String (Dict AggData × Bool × List String)) :
    List String :=
  match e with
  | Except.ok (_, _, errs) => errs
  | Except.error _ => []

/-- An aggregate with no counts, no runs and no history — what a cache holds
for an assignment that has never had submissions. -/
def emptyAgg : AggData := ⟨0, 0, 0, 0, [], []⟩

/-- Course A of the persistence counterexample: one assignment with one
ungraded submission (its tracker call will report a change). -/
def cexCourseA : Course := ⟨[⟨"hw", [⟨"1", false, none⟩]⟩]⟩

/-- Course B of the persistence counterexample: one assignment with no
submissions (against `emptyAgg` its tracker call reports no change). -/
def cexCourseB : Course := ⟨[⟨"hw", []⟩]⟩

/-- The course lookup of the persistence counterexample. -/
def cexLookup : String → String → List Course :=
  fun n _ => if n = "A" then [cexCourseA] else [cexCourseB]

/-- The two configured courses of the persistence counterexample. -/
def cexConfig : List (String × CourseInfo) :=
  [("A P", ⟨"A", "P", "ch", [⟨"hw", true⟩]⟩),
    ("B P", ⟨"B", "P", "ch", [⟨"hw", true⟩]⟩)]

/-- The channel map of the persistence counterexample. -/
def cexChannels : Dict String := [("ch", "C1")]

/-- The prior cache of the persistence counterexample: course B is cached
with an aggregate that exactly matches its live state. -/
def cexCached : Dict (Dict AggData) := [("B P", [("hw", emptyAgg)])]

/-! ### Association-list lemmas -/

theorem dictGet?_insert_self {α : Type} (d : Dict α) (k : String) (v : α) :
    dictGet? (dictInsert d k v) k = some v := by
  induction d with
  | nil => simp [dictInsert, dictGet?]
  | cons p rest ih =>
    obtain ⟨k2, v2⟩ := p
    by_cases h : k2 = k
    · simp [dictInsert, dictGet?, h]
    · simp [dictInsert, dictGet?, h, ih]

theorem dictGet?_insert_ne {α : Type} (d : Dict α) (k k2 : String) (v : α)
    (h : k ≠ k2) : dictGet? (dictInsert d k v) k2 = dictGet? d k2 := by
  induction d with
  | nil => simp [dictInsert, dictGet?, fun hh => h hh]
  | cons p rest ih =>
    obtain ⟨k3, v3⟩ := p
    by_cases h3 : k3 = k
    · subst h3
      simp [dictInsert, dictGet?, h]
    · simp [dictInsert, dictGet?, h3, ih]

theorem dictGet?_eq_none {α : Type} (d : Dict α) (k : String) :
    dictGet? d k = none ↔ k ∉ dictKeys d := by
  induction d with
  | nil => simp [dictGet?, dictKeys]
  | cons p rest ih =>
    obtain ⟨k2, v2⟩ := p
    by_cases h : k2 = k
    · simp [dictGet?, dictKeys, h]
    · simp [dictGet?, dictKeys, h, ih, Ne.symm h]

theorem dictGet?_some_mem {α : Type} (d : Dict α) (k : String) (v : α)
    (h : dictGet? d k = some v) : (k, v) ∈ d := by
  induction d with
  | nil => simp [dictGet?] at h
  | cons p rest ih =>
    obtain ⟨k2, v2⟩ := p
    by_cases h2 : k2 = k
    · subst h2
      simp [dictGet?] at h
      simp [h]
    · simp [dictGet?, h2] at h
      exact List.mem_cons_of_mem _ (ih h)

theorem dictMem_iff {α : Type} (d : Dict α) (k : String) :
    dictMem d k = true ↔ k ∈ dictKeys d := by
  rw [dictMem, Option.isSome_iff_ne_none, ne_eq, dictGet?_eq_none]
  simp

theorem dictKeys_cons {α : Type} (p : String × α) (rest : Dict α) :
    dictKeys (p :: rest) = p.1 :: dictKeys rest := rfl

theorem dictKeys_insert_mem {α : Type} (d : Dict α) (k : String) (v : α)
    (h : k ∈ dictKeys d) : dictKeys (dictInsert d k v) = dictKeys d := by
  induction d with
  | nil => simp [dictKeys] at h
  | cons p rest ih =>
    obtain ⟨k2, v2⟩ := p
    by_cases h2 : k2 = k
    · simp [dictInsert, h2, dictKeys_cons]
    · rw [dictKeys_cons] at h
      rcases List.mem_cons.mp h with h3 | h3

      · exact absurd h3.symm h2
      · simp [dictInsert, h2, dictKeys_cons, ih h3]

theorem dictKeys_insert_fresh {α : Type} (d : Dict α) (k : String) (v : α)
    (h : k ∉ dictKeys d) : dictKeys (dictInsert d k v) = dictKeys d ++ [k] := by
  induction d with
  | nil => simp [dictInsert, dictKeys]
  | cons p rest ih =>
    obtain ⟨k2, v2⟩ := p
    rw [dictKeys_cons] at h
    have h1 : ¬k2 = k := fun hh => h (by simp [hh])
    have h2 : k ∉ dictKeys rest := fun hh => h (List.mem_cons_of_mem _ hh)
    simp [dictInsert, h1, dictKeys_cons, ih h2]

theorem dictInsert_fresh_append {α : Type} (d : Dict α) (k : String) (v : α)
    (h : dictGet? d k = none) : dictInsert d k v = d ++ [(k, v)] := by
  induction d with
  | nil => simp [dictInsert]
  | cons p rest ih =>
    obtain ⟨k2, v2⟩ := p
    by_cases h2 : k2 = k
    · simp [dictGet?, h2] at h
    · simp [dictGet?, h2] at h
      simp [dictInsert, h2, ih h]

theorem dictGet?_append_left {α : Type} (d1 d2 : Dict α) (k : String) (v : α)
    (h : dictGet? d1 k = some v) : dictGet? (d1 ++ d2) k = some v := by
  induction d1 with
  | nil => simp [dictGet?] at h
  | cons p rest ih =>
    obtain ⟨k2, v2⟩ := p
    by_cases h2 : k2 = k
    · simp [dictGet?, h2] at h ⊢
      exact h
    · simp [dictGet?, h2] at h ⊢
      exact ih h

theorem dictGet?_append_right {α : Type} (d1 d2 : Dict α) (k : String)
    (h : dictGet? d1 k = none) : dictGet? (d1 ++ d2) k = dictGet? d2 k := by
  induction d1 with
  | nil => simp [dictGet?]
  | cons p rest ih =>
    obtain ⟨k2, v2⟩ := p
    by_cases h2 : k2 = k
    · simp [dictGet?, h2] at h
    · simp [dictGet?, h2] at h ⊢
      exact ih h

theorem dictKeys_nodup_insert {α : Type} (d : Dict α) (k : String) (v : α)
    (h : (dictKeys d).Nodup) : (dictKeys (dictInsert d k v)).Nodup := by
  by_cases hm : k ∈ dictKeys d
  · rw [dictKeys_insert_mem d k v hm]
    exact h
  · rw [dictKeys_insert_fresh d k v hm]
    simp [List.nodup_append, h, hm]

theorem mem_dictInsert {α : Type} (d : Dict α) (k : String) (v : α)
    (q : String × α) (h : q ∈ dictInsert d k v) : q ∈ d ∨ q.1 = k := by
  induction d with
  | nil =>
    simp [dictInsert] at h
    simp [h]
  | cons p rest ih =>
    obtain ⟨k2, v2⟩ := p
    by_cases h2 : k2 = k
    · subst h2
      simp [dictInsert] at h
      rcases h with h | h
      · simp [h]
      · exact Or.inl (List.mem_cons_of_mem _ h)
    · simp [dictInsert, h2] at h
      rcases h with h | h
      · simp [h]
      · rcases ih h with h3 | h3
        · exact Or.inl (List.mem_cons_of_mem _ h3)
        · exact Or.inr h3

/-! ### Step lemmas for the tracker loops -/

theorem pS_total (i : String) (st : TrackState) (s : Submission) :
    (processSubmission i st s).num_total = st.num_total + 1 := by
  simp only [processSubmission]
  repeat' split
  all_goals rfl

theorem pS_finalized (i : String) (st : TrackState) (s : Submission) :
    (processSubmission i st s).num_finalized =
      st.num_finalized + (if s.isFinalized then 1 else 0) := by
  simp only [processSubmission]
  repeat' split
  all_goals simp_all

theorem pS_drafts (i : String) (st : TrackState) (s : Submission) :
    (processSubmission i st s).num_drafts =
      st.num_drafts + (if !s.isFinalized && s.grader.isSome then 1 else 0) := by
  simp only [processSubmission]
  repeat' split
  all_goals simp_all

theorem pS_unclaimed (i : String) (st : TrackState) (s : Submission) :
    (processSubmission i st s).num_unclaimed =
      st.num_unclaimed +
        (if !s.isFinalized && !s.grader.isSome then 1 else 0) := by
  simp only [processSubmission]
  repeat' split
  all_goals simp_all

theorem pS_updated_mono (i : String) (st : TrackState) (s : Submission)
    (h : st.updated_status = true) :
    (processSubmission i st s).updated_status = true := by
  simp only [processSubmission]
  repeat' split
  all_goals simp_all

theorem pS_no_write (i : String) (st : TrackState) (s : Submission)
    (h : (processSubmission i st s).updated_status = false) :
    (processSubmission i st s).submissions = st.submissions ∧
      st.updated_status = false := by
  revert h
  simp only [processSubmission]
  repeat' split
  all_goals intro h
  all_goals simp_all

theorem pS_deleted (i : String) (st : TrackState) (s : Submission) :
    (processSubmission i st s).deleted =
      st.deleted.filter (fun x => x ≠ s.id) := by
  simp only [processSubmission]
  repeat' split
  all_goals rfl

theorem mD_counts (i : String) (st : TrackState) (sid : String) :
    (markDeleted i st sid).num_total = st.num_total ∧
      (markDeleted i st sid).num_finalized = st.num_finalized ∧
      (markDeleted i st sid).num_drafts = st.num_drafts ∧
      (markDeleted i st sid).num_unclaimed = st.num_unclaimed ∧
      (markDeleted i st sid).deleted = st.deleted ∧
      (markDeleted i st sid).graders_finalized = st.graders_finalized := by
  simp only [markDeleted]
  repeat' split
  all_goals simp_all

theorem mD_updated_mono (i : String) (st : TrackState) (sid : String)
    (h : st.updated_status = true) :
    (markDeleted i st sid).updated_status = true := by
  simp only [markDeleted]
  repeat' split
  all_goals simp_all

theorem mD_no_write (i : String) (st : TrackState) (sid : String)
    (h : (markDeleted i st sid).updated_status = false) :
    (markDeleted i st sid).submissions = st.submissions ∧
      st.updated_status = false := by
  revert h
  simp only [markDeleted]
  repeat' split
  all_goals intro h
  all_goals simp_all

theorem pS_get_ne (i : String) (st : TrackState) (s : Submission)
    (x : String) (h : s.id ≠ x) :
    dictGet? (processSubmission i st s).submissions x =
      dictGet? st.submissions x := by
  simp only [processSubmission]
  repeat' split
  all_goals simp_all [save_status, dictGet?_insert_ne _ _ _ _ h]

theorem mD_get_ne (i : String) (st : TrackState) (sid : String)
    (x : String) (h : sid ≠ x) :
    dictGet? (markDeleted i st sid).submissions x =
      dictGet? st.submissions x := by
  simp only [markDeleted]
  repeat' split
  all_goals simp_all [save_status, dictGet?_insert_ne _ _ _ _ h]

/-! ### Fold lemmas for the tracker loops -/

theorem foldPS_total (i : String) (subs : List Submission) :
    ∀ st : TrackState,
      (subs.foldl (processSubmission i) st).num_total =
        st.num_total + subs.length := by
  induction subs with
  | nil => intro st; simp
  | cons s rest ih =>
    intro st
    simp only [List.foldl_cons, ih, pS_total, List.length_cons]
    omega

theorem foldPS_finalized (i : String) (subs : List Submission) :
    ∀ st : TrackState,
      (subs.foldl (processSubmission i) st).num_finalized =
        st.num_finalized + subs.countP (fun s => s.isFinalized) := by
  induction subs with
  | nil => intro st; simp
  | cons s rest ih =>
    intro st
    simp only [List.foldl_cons, ih, pS_finalized, List.countP_cons]
    by_cases h : s.isFinalized <;> simp [h] <;> omega

theorem foldPS_drafts (i : String) (subs : List Submission) :
    ∀ st : TrackState,
      (subs.foldl (processSubmission i) st).num_drafts =
        st.num_drafts +
          subs.countP (fun s => !s.isFinalized && s.grader.isSome) := by
  induction subs with
  | nil => intro st; simp
  | cons s rest ih =>
    intro st
    simp only [List.foldl_cons, ih, pS_drafts, List.countP_cons]
    by_cases h : (!s.isFinalized && s.grader.isSome) = true <;>
      simp [h] <;> omega

theorem foldPS_unclaimed (i : String) (subs : List Submission) :
    ∀ st : TrackState,
      (subs.foldl (processSubmission i) st).num_unclaimed =
        st.num_unclaimed +
          subs.countP (fun s => !s.isFinalized && !s.grader.isSome) := by
  induction subs with
  | nil => intro st; simp
  | cons s rest ih =>
    intro st
    simp only [List.foldl_cons, ih, pS_unclaimed, List.countP_cons]
    by_cases h : (!s.isFinalized && !s.grader.isSome) = true <;>
      simp [h] <;> omega

theorem foldPS_updated_mono (i : String) (subs : List Submission) :
    ∀ st : TrackState, st.updated_status = true →
      (subs.foldl (processSubmission i) st).updated_status = true := by
  induction subs with
  | nil => intro st h; simpa using h
  | cons s rest ih =>
    intro st h
    exact ih _ (pS_updated_mono i st s h)

theorem foldMD_updated_mono (i : String) (dels : List String) :
    ∀ st : TrackState, st.updated_status = true →
      (dels.foldl (markDeleted i) st).updated_status = true := by
  induction dels with
  | nil => intro st h; simpa using h
  | cons d rest ih =>
    intro st h
    exact ih _ (mD_updated_mono i st d h)

theorem foldPS_no_write (i : String) (subs : List Submission) :
    ∀ st : TrackState,
      (subs.foldl (processSubmission i) st).updated_status = false →
      (subs.foldl (processSubmission i) st).submissions = st.submissions ∧
        st.updated_status = false := by
  induction subs with
  | nil => intro st h; exact ⟨rfl, by simpa using h⟩
  | cons s rest ih =>
    intro st h
    obtain ⟨h1, h2⟩ := ih _ h
    obtain ⟨h3, h4⟩ := pS_no_write i st s h2
    exact ⟨h1.trans h3, h4⟩

theorem foldMD_no_write (i : String) (dels : List String) :
    ∀ st : TrackState,
      (dels.foldl (markDeleted i) st).updated_status = false →
      (dels.foldl (markDeleted i) st).submissions = st.submissions ∧
        st.updated_status = false := by
  induction dels with
  | nil => intro st h; exact ⟨rfl, by simpa using h⟩
  | cons d rest ih =>
    intro st h
    obtain ⟨h1, h2⟩ := ih _ h
    obtain ⟨h3, h4⟩ := mD_no_write i st d h2
    exact ⟨h1.trans h3, h4⟩

theorem foldMD_counts (i : String) (dels : List String) :
    ∀ st : TrackState,
      (dels.foldl (markDeleted i) st).num_total = st.num_total ∧
        (dels.foldl (markDeleted i) st).num_finalized = st.num_finalized ∧
        (dels.foldl (markDeleted i) st).num_drafts = st.num_drafts ∧
        (dels.foldl (markDeleted i) st).num_unclaimed = st.num_unclaimed := by
  induction dels with
  | nil => intro st; exact ⟨rfl, rfl, rfl, rfl⟩
  | cons d rest ih =>
    intro st
    obtain ⟨h1, h2, h3, h4, _, _⟩ := mD_counts i st d
    obtain ⟨g1, g2, g3, g4⟩ := ih (markDeleted i st d)
    exact ⟨g1.trans h1, g2.trans h2, g3.trans h3, g4.trans h4⟩

theorem foldPS_get_ne (i : String) (subs : List Submission) (x : String)
    (hx : ∀ s ∈ subs, s.id ≠ x) :
    ∀ st : TrackState,
      dictGet? (subs.foldl (processSubmission i) st).submissions x =
        dictGet? st.submissions x := by
  induction subs with
  | nil => intro st; rfl
  | cons s rest ih =>
    intro st
    have h1 := ih (fun s2 h2 => hx s2 (List.mem_cons_of_mem _ h2))
      (processSubmission i st s)
    rw [List.foldl_cons, h1, pS_get_ne i st s x (hx s (List.mem_cons_self _ _))]

theorem foldMD_get_ne (i : String) (dels : List String) (x : String)
    (hx : x ∉ dels) :
    ∀ st : TrackState,
      dictGet? (dels.foldl (markDeleted i) st).submissions x =
        dictGet? st.submissions x := by
  induction dels with
  | nil => intro st; rfl
  | cons d rest ih =>
    intro st
    have hd : d ≠ x := fun hh => hx (by simp [hh])
    have h1 := ih (fun hh => hx (List.mem_cons_of_mem _ hh)) (markDeleted i st d)
    rw [List.foldl_cons, h1, mD_get_ne i st d x hd]

theorem partitionCount (subs : List Submission) :
    subs.length = subs.countP (fun s => s.isFinalized) +
      subs.countP (fun s => !s.isFinalized && s.grader.isSome) +
      subs.countP (fun s => !s.isFinalized && !s.grader.isSome) := by
  induction subs with
  | nil => simp
  | cons s rest ih =>
    rcases s with ⟨sid, fin, gr⟩
    cases fin <;> cases gr <;>
      simp only [List.length_cons, List.countP_cons] <;>
      rw [ih] <;> norm_num <;> omega

theorem trackRun_counts (subs : List Submission) (copt : Option AggData) :
    (trackRun subs copt).1.num_total = subs.length ∧
      (trackRun subs copt).1.num_finalized =
        subs.countP (fun s => s.isFinalized) ∧
      (trackRun subs copt).1.num_drafts =
        subs.countP (fun s => !s.isFinalized && s.grader.isSome) ∧
      (trackRun subs copt).1.num_unclaimed =
        subs.countP (fun s => !s.isFinalized && !s.grader.isSome) := by
  cases copt with
  | none =>
    simp only [trackRun]
    refine ⟨?_, ?_, ?_, ?_⟩
    · rw [(foldMD_counts _ _ _).1, foldPS_total]; simp
    · rw [(foldMD_counts _ _ _).2.1, foldPS_finalized]; simp
    · rw [(foldMD_counts _ _ _).2.2.1, foldPS_drafts]; simp
    · rw [(foldMD_counts _ _ _).2.2.2, foldPS_unclaimed]; simp
  | some c =>
    simp only [trackRun]
    refine ⟨?_, ?_, ?_, ?_⟩
    · rw [(foldMD_counts _ _ _).1, foldPS_total]; simp
    · rw [(foldMD_counts _ _ _).2.1, foldPS_finalized]; simp
    · rw [(foldMD_counts _ _ _).2.2.1, foldPS_drafts]; simp
    · rw [(foldMD_counts _ _ _).2.2.2, foldPS_unclaimed]; simp

theorem check_data_counts (subs : List Submission) (ts : String)
    (copt : Option AggData) :
    (check_assignment_updates subs ts copt).data.total =
        (trackRun subs copt).1.num_total ∧
      (check_assignment_updates subs ts copt).data.finalized =
        (trackRun subs copt).1.num_finalized ∧
      (check_assignment_updates subs ts copt).data.drafts =
        (trackRun subs copt).1.num_drafts ∧
      (check_assignment_updates subs ts copt).data.unclaimed =
        (trackRun subs copt).1.num_unclaimed :=
  ⟨rfl, rfl, rfl, rfl⟩

/-- C10: every live submission is counted in exactly one of
`finalized`/`drafts`/`unclaimed`, so the aggregate returned by
`check_assignment_updates` always satisfies
`total = finalized + drafts + unclaimed`, and the
`unclaimed = total - (finalized + drafts)` recomputed on the notification
path of `check_course_updates` equals the aggregate's own `unclaimed`. -/
theorem spec_c10_count_partition (subs : List Submission) (ts : String)
    (copt : Option AggData) :
    (check_assignment_updates subs ts copt).data.total =
        (check_assignment_updates subs ts copt).data.finalized +
          (check_assignment_updates subs ts copt).data.drafts +
          (check_assignment_updates subs ts copt).data.unclaimed ∧
      ((check_assignment_updates subs ts copt).data.total : Int) -
          (((check_assignment_updates subs ts copt).data.finalized : Int) +
            ((check_assignment_updates subs ts copt).data.drafts : Int)) =
        ((check_assignment_updates subs ts copt).data.unclaimed : Int) := by
  obtain ⟨h1, h2, h3, h4⟩ := check_data_counts subs ts copt
  obtain ⟨g1, g2, g3, g4⟩ := trackRun_counts subs copt
  have key : (check_assignment_updates subs ts copt).data.total =
      (check_assignment_updates subs ts copt).data.finalized +
        (check_assignment_updates subs ts copt).data.drafts +
        (check_assignment_updates subs ts copt).data.unclaimed := by
    rw [h1, h2, h3, h4, g1, g2, g3, g4]
    exact partitionCount subs
  refine ⟨key, ?_⟩
  omega

/-- C1 counterexample: on a first run over five ungraded submissions the
tracker returns `changed = true` with `total = 5` and `finalized = 0` (every
status write flips `updated_status`, which short-circuits the
`finalized = 0` guard), and the course loop then does attempt the Slack
send — refuting the claim that `total = 5, finalized = 0` never warrants a
notification. -/
theorem spec_c1_counterexample :
    (check_assignment_updates fiveUnclaimed "t" none).changed = true ∧
      (check_assignment_updates fiveUnclaimed "t" none).data.total = 5 ∧
      (check_assignment_updates fiveUnclaimed "t" none).data.finalized = 0 ∧
      courseErrors (check_course_updates (fun _ => some "E")
        [("hw", fiveUnclaimed)] [⟨"hw", true⟩] (fun _ => "t") none) =
        ["Slack API error: E"] := by
  refine ⟨rfl, rfl, rfl, rfl⟩

/-- C1 amended: the `total > 0 ∧ finalized > 0` notification gate holds
only for calls that wrote no history — if no submission-status write
occurred, `changed = true` implies `total > 0` and `finalized > 0`; but any
call that wrote history returns `changed = true` unconditionally, even with
`finalized = 0`. -/
theorem spec_c1_amended (subs : List Submission) (ts : String)
    (copt : Option AggData) :
    (trackWrote subs copt = false →
      (check_assignment_updates subs ts copt).changed = true →
      0 < (check_assignment_updates subs ts copt).data.total ∧
        0 < (check_assignment_updates subs ts copt).data.finalized) ∧
    (trackWrote subs copt = true →
      (check_assignment_updates subs ts copt).changed = true) := by
  constructor
  · intro hw hc
    simp only [check_assignment_updates, trackWrote] at hw hc ⊢
    rw [hw] at hc
    simp only [if_false, Bool.false_eq_true] at hc
    by_cases h0 : ((trackRun subs copt).1.num_total == 0 ||
        (trackRun subs copt).1.num_finalized == 0) = true
    · simp [h0] at hc
    · simp only [Bool.or_eq_true, beq_iff_eq, not_or] at h0
      omega
  · intro hw
    simp only [check_assignment_updates, trackWrote] at hw ⊢
    rw [hw]
    rfl

/-- C1 witness: the amended theorem applied at a concrete no-write call. -/
theorem spec_c1_witness :
    trackWrote [] (some emptyAgg) = false ∧
      ((check_assignment_updates [] "t" (some emptyAgg)).changed = true →
        0 < (check_assignment_updates [] "t" (some emptyAgg)).data.total ∧
          0 < (check_assignment_updates [] "t" (some emptyAgg)).data.finalized) :=
  ⟨rfl, (spec_c1_amended [] "t" (some emptyAgg)).1 rfl⟩

/-- C5 counterexample: a first run (no prior history) over an empty live
submission list returns `changed = false`, refuting the claim that a first
run always yields `dataChanged = true`. -/
theorem spec_c5_counterexample :
    (check_assignment_updates [] "t" none).changed = false := rfl

/-- C8 counterexample: two successive calls — an empty first call (no
write) followed by a writing call — both allocate run index 1, and the final
run log holds only index 1; the indices used are not `{1, 2}` and index 1 is
allocated twice, refuting the claimed `{1, …, N}` discipline. -/
theorem spec_c8_counterexample :
    (iterTrackTrace [([], "t1"), ([⟨"9", false, none⟩], "t2")] none).2 =
        [(1, false), (1, true)] ∧
      runsKeysOpt
        (iterTrackTrace [([], "t1"), ([⟨"9", false, none⟩], "t2")] none).1 =
        [toDecStr 1] := by
  refine ⟨rfl, rfl⟩

/-- C4 counterexample: a live course whose one assignment has a finalized
submission with a `None` grader makes `_build_notification_msg` raise a
`TypeError` (slicing `None`), which propagates out of
`check_course_updates` instead of degrading to a collected error string —
refuting the claim that the loop never raises for a message-build
failure. -/
theorem spec_c4_counterexample :
    check_course_updates (fun _ => none) [("hw", [⟨"1", true, none⟩])]
        [⟨"hw", true⟩] (fun _ => "t") none =
      Except.error "TypeError: NoneType is not subscriptable" := rfl

theorem dl_step_stamped (o : DeadlineOutcome) (a : DeadlineAssignment)
    (t : String) (h : a.sent_deadline_message = some t) :
    (deadline_step o a).1 = a ∧ (deadline_step o a).2.1 = false := by
  simp only [deadline_step]
  rcases hd : a.deadline with _ | d
  · exact ⟨rfl, rfl⟩
  · simp [h]

theorem dl_step_no_send (o : DeadlineOutcome) (a : DeadlineAssignment)
    (h : (deadline_step o a).2.1 = false) :
    (deadline_step o a).1.sent_deadline_message = a.sent_deadline_message := by
  revert h
  simp only [deadline_step]
  rcases hd : a.deadline with _ | d
  · intro h; rfl
  · repeat' split
    all_goals intro h
    all_goals simp_all

theorem dl_step_send (o : DeadlineOutcome) (a : DeadlineAssignment)
    (h : (deadline_step o a).2.1 = true) :
    (deadline_step o a).1.sent_deadline_message = some o.nowTs := by
  revert h
  simp only [deadline_step]
  rcases hd : a.deadline with _ | d
  · intro h; simp at h
  · repeat' split
    all_goals intro h
    all_goals simp_all

theorem dl_fold_stamped (outcomes : List DeadlineOutcome) :
    ∀ (a : DeadlineAssignment) (t : String),
      a.sent_deadline_message = some t → (deadline_fold outcomes a).2 = 0 := by
  induction outcomes with
  | nil => intro a t h; rfl
  | cons o rest ih =>
    intro a t h
    obtain ⟨h1, h2⟩ := dl_step_stamped o a t h
    simp only [deadline_fold, h2, if_false]
    rw [h1]
    simpa using ih a t h

theorem dl_fold_le_one (outcomes : List DeadlineOutcome) :
    ∀ a : DeadlineAssignment, (deadline_fold outcomes a).2 ≤ 1 := by
  induction outcomes with
  | nil => intro a; simp [deadline_fold]
  | cons o rest ih =>
    intro a
    simp only [deadline_fold]
    by_cases hs : (deadline_step o a).2.1 = true
    · have h1 := dl_step_send o a hs
      have h2 := dl_fold_stamped rest (deadline_step o a).1 o.nowTs h1
      simp [hs, h2]
    · have hs2 : (deadline_step o a).2.1 = false := by
        simpa using hs
      simp only [hs2]
      simpa using ih (deadline_step o a).1

/-- C2 (modelled from the spec): when a deadline is configured, a crossed
deadline with no prior stamp sends the message and stamps
`sent_deadline_message = now()` on successful delivery, leaves the stamp
unset on build or delivery failure, and across any sequence of runs the
deadline message is successfully delivered at most once (never again once
stamped). -/
theorem spec_c2_deadline_once (o : DeadlineOutcome) (a : DeadlineAssignment)
    (outcomes : List DeadlineOutcome) (hd : a.deadline ≠ none) :
    (a.passed_deadline = true → a.sent_deadline_message = none →
      o.buildOk = true → o.sendErr = none →
      deadline_step o a =
        ({ a with sent_deadline_message := some o.nowTs }, true, [])) ∧
    (a.passed_deadline = true → a.sent_deadline_message = none →
      o.buildOk = false ∨ o.sendErr ≠ none →
      (deadline_step o a).1.sent_deadline_message = none ∧
        (deadline_step o a).2.1 = false) ∧
    (deadline_fold outcomes a).2 ≤ 1 ∧
    (a.sent_deadline_message ≠ none → (deadline_fold outcomes a).2 = 0) := by
  rcases hdl : a.deadline with _ | d
  · exact absurd hdl hd
  refine ⟨?_, ?_, dl_fold_le_one outcomes a, ?_⟩
  · intro hp hn hb hs
    simp [deadline_step, hdl, hp, hn, hb, hs]
  · intro hp hn hbs
    rcases hbs with hb | hs
    · simp [deadline_step, hdl, hp, hn, hb]
    · rcases hse : o.sendErr with _ | e
      · exact absurd hse hs
      · by_cases hb2 : o.buildOk = false
        · simp [deadline_step, hdl, hp, hn, hse, hb2, hn]
        · simp only [deadline_step, hdl, hp, hn]
          simp [hse, hb2, hn]
  · intro hsome
    rcases hse : a.sent_deadline_message with _ | t
    · exact absurd hse hsome
    · exact dl_fold_stamped outcomes a t hse

/-- C2 witness: the theorem applied at a concrete success run and a
concrete two-run sequence. -/
theorem spec_c2_deadline_once_witness :
    deadline_step ⟨true, none, "T"⟩ ⟨some "d", true, none⟩ =
        (⟨some "d", true, some "T"⟩, true, []) ∧
      (deadline_fold [⟨true, none, "T"⟩, ⟨true, none, "T"⟩]
        ⟨some "d", true, none⟩).2 ≤ 1 := by
  constructor
  · exact (spec_c2_deadline_once ⟨true, none, "T"⟩ ⟨some "d", true, none⟩ []
      (by simp)).1 rfl rfl rfl rfl
  · exact (spec_c2_deadline_once ⟨true, none, "T"⟩ ⟨some "d", true, none⟩
      [⟨true, none, "T"⟩, ⟨true, none, "T"⟩] (by simp)).2.2.1

/-! ### Decimal numeral lemmas -/

theorem charDigit_decChar : ∀ d, d < 10 → charDigit (decChar d) = d := by
  decide

theorem decChar_toNat_iff :
    ∀ d, d < 10 → ∀ e, e < 10 →
      (((decChar d).toNat < (decChar e).toNat) ↔ d < e) := by
  decide

theorem valD_append (l : List Nat) (d : Nat) :
    valD (l ++ [d]) = 10 * valD l + d := by
  simp [valD, List.foldl_append]

theorem natDigitsAux_succ (fuel n : Nat) (hn : n ≠ 0) :
    natDigitsAux (fuel + 1) n = natDigitsAux fuel (n / 10) ++ [n % 10] := by
  cases n with
  | zero => exact absurd rfl hn
  | succ m => rfl

theorem valD_natDigitsAux : ∀ fuel n, n ≤ fuel →
    valD (natDigitsAux fuel n) = n := by
  intro fuel
  induction fuel with
  | zero =>
    intro n hn
    interval_cases n
    rfl
  | succ f ih =>
    intro n hn
    by_cases h0 : n = 0
    · subst h0; rfl
    · rw [natDigitsAux_succ f n h0, valD_append,
        ih (n / 10) (by omega)]
      omega

theorem natDigitsAux_lt10 : ∀ fuel n d, d ∈ natDigitsAux fuel n → d < 10 := by
  intro fuel
  induction fuel with
  | zero =>
    intro n d hd
    cases n <;> simp [natDigitsAux] at hd
  | succ f ih =>
    intro n d hd
    by_cases h0 : n = 0
    · subst h0; simp [natDigitsAux] at hd
    · rw [natDigitsAux_succ f n h0] at hd
      rcases List.mem_append.mp hd with h | h
      · exact ih _ _ h
      · simp at h
        omega

theorem natDigitsAux_head : ∀ fuel n, 1 ≤ n → n ≤ fuel →
    ∃ h t, natDigitsAux fuel n = h :: t ∧ 1 ≤ h := by
  intro fuel
  induction fuel with
  | zero => intro n h1 h2; omega
  | succ f ih =>
    intro n h1 h2
    rw [natDigitsAux_succ f n (by omega)]
    by_cases hq : n / 10 = 0
    · refine ⟨n % 10, [], ?_, ?_⟩
      · rw [hq]
        simp [natDigitsAux]
      · omega
    · obtain ⟨h, t, heq, hge⟩ := ih (n / 10) (by omega) (by omega)
      exact ⟨h, t ++ [n % 10], by rw [heq]; rfl, hge⟩

theorem valD_acc (l : List Nat) :
    ∀ a, l.foldl (fun acc d => 10 * acc + d) a =
      a * 10 ^ l.length + valD l := by
  induction l with
  | nil => intro a; simp [valD]
  | cons x xs ih =>
    intro a
    have h1 := ih (10 * a + x)
    have h2 := ih x
    simp only [List.foldl_cons] at *
    have hv : valD (x :: xs) = x * 10 ^ xs.length + valD xs := by
      have := ih (10 * 0 + x)
      simp only [valD, List.foldl_cons]
      simpa using this
    rw [h1, hv, List.length_cons]
    ring

theorem valD_cons (x : Nat) (xs : List Nat) :
    valD (x :: xs) = x * 10 ^ xs.length + valD xs := by
  have := valD_acc xs (10 * 0 + x)
  simp only [valD, List.foldl_cons]
  simpa using this

theorem valD_lt (l : List Nat) (h : ∀ d ∈ l, d < 10) :
    valD l < 10 ^ l.length := by
  induction l with
  | nil => simp [valD]
  | cons x xs ih =>
    have hx : x < 10 := h x (List.mem_cons_self _ _)
    have hxs := ih (fun d hd => h d (List.mem_cons_of_mem _ hd))
    rw [valD_cons, List.length_cons, pow_succ]
    calc x * 10 ^ xs.length + valD xs
        < x * 10 ^ xs.length + 10 ^ xs.length := by omega
      _ = (x + 1) * 10 ^ xs.length := by ring
      _ ≤ 10 * 10 ^ xs.length := by
          exact Nat.mul_le_mul_right _ (by omega)
      _ = 10 ^ xs.length * 10 := by ring

theorem valD_ge (x : Nat) (xs : List Nat) (hx : 1 ≤ x) :
    10 ^ xs.length ≤ valD (x :: xs) := by
  rw [valD_cons]
  calc 10 ^ xs.length = 1 * 10 ^ xs.length := by ring
    _ ≤ x * 10 ^ xs.length := Nat.mul_le_mul_right _ hx
    _ ≤ x * 10 ^ xs.length + valD xs := Nat.le_add_right _ _

theorem natDigits_val (n : Nat) : valD (natDigits n) = n :=
  valD_natDigitsAux n n le_rfl

theorem natDigits_lt10 (n d : Nat) (h : d ∈ natDigits n) : d < 10 :=
  natDigitsAux_lt10 n n d h

theorem natDigits_head (n : Nat) (h : 1 ≤ n) :
    ∃ hd t, natDigits n = hd :: t ∧ 1 ≤ hd :=
  natDigitsAux_head n n h le_rfl

theorem natDigits_length_le (m n : Nat) (hm : 1 ≤ m) (hn : 1 ≤ n)
    (h : m < n) : (natDigits m).length ≤ (natDigits n).length := by
  by_contra hlen
  push_neg at hlen
  obtain ⟨hd, t, heq, hge⟩ := natDigits_head m hm
  have h1 : 10 ^ (natDigits n).length ≤ 10 ^ t.length := by
    apply Nat.pow_le_pow_right (by omega)
    have : (natDigits m).length = t.length + 1 := by rw [heq]; rfl
    omega
  have h2 : (n : Nat) < 10 ^ (natDigits n).length := by
    have := valD_lt (natDigits n) (fun d hd2 => natDigits_lt10 n d hd2)
    rwa [natDigits_val] at this
  have h3 : 10 ^ t.length ≤ m := by
    have := valD_ge hd t hge
    rw [← heq, natDigits_val] at this
    exact this
  omega

theorem natLexLt_iff : ∀ l1 l2 : List Nat, l1.length = l2.length →
    (∀ d ∈ l1, d < 10) → (∀ d ∈ l2, d < 10) →
    (natLexLt l1 l2 = true ↔ valD l1 < valD l2) := by
  intro l1
  induction l1 with
  | nil =>
    intro l2 hlen _ _
    have : l2 = [] := List.length_eq_zero.mp hlen.symm
    subst this
    simp [natLexLt, valD]
  | cons a as ih =>
    intro l2 hlen h1 h2
    cases l2 with
    | nil => simp at hlen
    | cons b bs =>
      have hlen2 : as.length = bs.length := by
        simpa using hlen
      have ha : a < 10 := h1 a (List.mem_cons_self _ _)
      have hb : b < 10 := h2 b (List.mem_cons_self _ _)
      have has := fun d hd => h1 d (List.mem_cons_of_mem _ hd)
      have hbs := fun d hd => h2 d (List.mem_cons_of_mem _ hd)
      rcases Nat.lt_trichotomy a b with hab | hab | hab
      · constructor
        · intro _
          rw [valD_cons, valD_cons, hlen2]
          have hv1 : valD as < 10 ^ bs.length := by
            rw [← hlen2]
            exact valD_lt as has
          calc a * 10 ^ bs.length + valD as
              < a * 10 ^ bs.length + 10 ^ bs.length := by omega
            _ = (a + 1) * 10 ^ bs.length := by ring
            _ ≤ b * 10 ^ bs.length := Nat.mul_le_mul_right _ (by omega)
            _ ≤ b * 10 ^ bs.length + valD bs := Nat.le_add_right _ _
        · intro _
          simp [natLexLt, hab]
      · subst hab
        have hrec := ih bs hlen2 has hbs
        have hstep : natLexLt (a :: as) (a :: bs) = natLexLt as bs := by
          simp [natLexLt]
        rw [hstep, valD_cons, valD_cons, hlen2, hrec]
        omega
      · constructor
        · intro hlt
          exfalso
          simp [natLexLt, hab, Nat.lt_asymm hab] at hlt
        · intro hv
          exfalso
          rw [valD_cons, valD_cons, hlen2] at hv
          have hv2 : valD bs < 10 ^ bs.length := valD_lt bs hbs
          have : b * 10 ^ bs.length + valD bs <
              a * 10 ^ bs.length + valD as := by
            calc b * 10 ^ bs.length + valD bs
                < (b + 1) * 10 ^ bs.length := by
                  have := hv2
                  ring_nf
                  omega
              _ ≤ a * 10 ^ bs.length := Nat.mul_le_mul_right _ (by omega)
              _ ≤ a * 10 ^ bs.length + valD as := Nat.le_add_right _ _
          omega

theorem charListLt_map : ∀ l1 l2 : List Nat, (∀ d ∈ l1, d < 10) →
    (∀ d ∈ l2, d < 10) →
    charListLt (l1.map decChar) (l2.map decChar) = natLexLt l1 l2 := by
  intro l1
  induction l1 with
  | nil =>
    intro l2 _ _
    cases l2 <;> rfl
  | cons a as ih =>
    intro l2 h1 h2
    cases l2 with
    | nil => rfl
    | cons b bs =>
      have ha : a < 10 := h1 a (List.mem_cons_self _ _)
      have hb : b < 10 := h2 b (List.mem_cons_self _ _)
      have has := fun d hd => h1 d (List.mem_cons_of_mem _ hd)
      have hbs := fun d hd => h2 d (List.mem_cons_of_mem _ hd)
      simp only [List.map_cons, charListLt, natLexLt]
      have e1 : ((decChar a).toNat < (decChar b).toNat) ↔ a < b :=
        decChar_toNat_iff a ha b hb
      have e2 : ((decChar b).toNat < (decChar a).toNat) ↔ b < a :=
        decChar_toNat_iff b hb a ha
      by_cases hab : a < b
      · simp [hab, e1.mpr hab]
      · by_cases hba : b < a
        · simp [hab, hba, e1, e2, ih bs has hbs]
        · simp [hab, hba, e1, e2, ih bs has hbs]

theorem charListLt_irrefl : ∀ l : List Char, charListLt l l = false := by
  intro l
  induction l with
  | nil => rfl
  | cons a as ih => simp [charListLt, ih]

theorem charListLt_asymm : ∀ l1 l2 : List Char,
    charListLt l1 l2 = true → charListLt l2 l1 = false := by
  intro l1
  induction l1 with
  | nil =>
    intro l2 h
    cases l2 <;> simp [charListLt] at h ⊢
  | cons a as ih =>
    intro l2 h
    cases l2 with
    | nil => simp [charListLt] at h
    | cons b bs =>
      simp only [charListLt] at h ⊢
      by_cases h1 : a.toNat < b.toNat
      · simp [h1, Nat.lt_asymm h1]
      · by_cases h2 : b.toNat < a.toNat
        · simp [h1, h2] at h
        · simp [h1, h2] at h ⊢
          exact ih bs h

theorem strKeyLt_irrefl (s : String) : strKeyLt s s = false := by
  simp [strKeyLt, charListLt_irrefl]

theorem strKeyLt_asymm (a b : String) (h : strKeyLt a b = true) :
    strKeyLt b a = false := by
  simp only [strKeyLt, Bool.or_eq_true, decide_eq_true_eq,
    Bool.and_eq_true, beq_iff_eq] at h
  rcases h with h | ⟨hlen, hlex⟩
  · have h1 : decide (b.data.length < a.data.length) = false := by
      simp only [decide_eq_false_iff_not]
      omega
    have h2 : (b.data.length == a.data.length) = false := by
      simp only [beq_eq_false_iff_ne, ne_eq]
      omega
    rw [strKeyLt, h1, h2]
    rfl
  · have h1 : decide (b.data.length < a.data.length) = false := by
      simp only [decide_eq_false_iff_not]
      omega
    have h2 : (b.data.length == a.data.length) = true := by
      simp [hlen]
    rw [strKeyLt, h1, h2, charListLt_asymm a.data b.data hlex]
    rfl

theorem toDecStr_data (n : Nat) (hn : 1 ≤ n) :
    (toDecStr n).data = (natDigits n).map decChar := by
  rw [toDecStr, if_neg (by omega)]

theorem foldl_digits (l : List Nat) (hl : ∀ d ∈ l, d < 10) :
    ∀ a, (l.map decChar).foldl (fun acc c => 10 * acc + charDigit c) a =
      l.foldl (fun acc d => 10 * acc + d) a := by
  induction l with
  | nil => intro a; rfl
  | cons x xs ih =>
    intro a
    have hx : x < 10 := hl x (List.mem_cons_self _ _)
    have hxs := ih (fun d hd => hl d (List.mem_cons_of_mem _ hd))
    simp only [List.map_cons, List.foldl_cons, charDigit_decChar x hx, hxs]

theorem strVal_toDecStr (n : Nat) : strVal (toDecStr n) = n := by
  by_cases h0 : n = 0
  · subst h0; rfl
  · rw [strVal, toDecStr_data n (by omega),
      foldl_digits (natDigits n) (fun d hd => natDigits_lt10 n d hd)]
    exact natDigits_val n

theorem toDecStr_inj (m n : Nat) (h : toDecStr m = toDecStr n) : m = n := by
  have := strVal_toDecStr m
  rw [h, strVal_toDecStr] at this
  omega

theorem strKeyLt_toDecStr (m n : Nat) (hm : 1 ≤ m) (hn : 1 ≤ n) :
    strKeyLt (toDecStr m) (toDecStr n) = true ↔ m < n := by
  constructor
  · intro h
    rcases Nat.lt_trichotomy m n with hmn | hmn | hmn
    · exact hmn
    · subst hmn
      rw [strKeyLt_irrefl] at h
      exact absurd h (by simp)
    · exfalso
      have h2 : strKeyLt (toDecStr n) (toDecStr m) = true := by
        -- forward direction at (n, m)
        have hlen := natDigits_length_le n m hn hm hmn
        rcases Nat.lt_or_ge (natDigits n).length (natDigits m).length with
          hl | hl
        · rw [strKeyLt]
          have : (toDecStr n).data.length < (toDecStr m).data.length := by
            rw [toDecStr_data n hn, toDecStr_data m hm]
            simpa using hl
          simp only [Bool.or_eq_true, decide_eq_true_eq, Bool.and_eq_true,
            beq_iff_eq]
          exact Or.inl this
        · have heq : (natDigits n).length = (natDigits m).length := by omega
          rw [strKeyLt]
          have hdla : (toDecStr n).data.length = (toDecStr m).data.length := by
            rw [toDecStr_data n hn, toDecStr_data m hm]
            simpa using heq
          have hlex : charListLt (toDecStr n).data (toDecStr m).data = true := by
            rw [toDecStr_data n hn, toDecStr_data m hm,
              charListLt_map _ _ (fun d hd => natDigits_lt10 n d hd)
                (fun d hd => natDigits_lt10 m d hd)]
            rw [natLexLt_iff _ _ heq (fun d hd => natDigits_lt10 n d hd)
              (fun d hd => natDigits_lt10 m d hd), natDigits_val,
              natDigits_val]
            exact hmn
          simp [hdla, hlex]
      rw [strKeyLt_asymm _ _ h2] at h
      exact absurd h (by simp)
  · intro hmn
    have hlen := natDigits_length_le m n hm hn hmn
    rcases Nat.lt_or_ge (natDigits m).length (natDigits n).length with hl | hl
    · rw [strKeyLt]
      have : (toDecStr m).data.length < (toDecStr n).data.length := by
        rw [toDecStr_data m hm, toDecStr_data n hn]
        simpa using hl
      simp only [Bool.or_eq_true, decide_eq_true_eq, Bool.and_eq_true,
        beq_iff_eq]
      exact Or.inl this
    · have heq : (natDigits m).length = (natDigits n).length := by omega
      rw [strKeyLt]
      have hdla : (toDecStr m).data.length = (toDecStr n).data.length := by
        rw [toDecStr_data m hm, toDecStr_data n hn]
        simpa using heq
      have hlex : charListLt (toDecStr m).data (toDecStr n).data = true := by
        rw [toDecStr_data m hm, toDecStr_data n hn,
          charListLt_map _ _ (fun d hd => natDigits_lt10 m d hd)
            (fun d hd => natDigits_lt10 n d hd)]
        rw [natLexLt_iff _ _ heq (fun d hd => natDigits_lt10 m d hd)
          (fun d hd => natDigits_lt10 n d hd), natDigits_val, natDigits_val]
        exact hmn
      simp [hdla, hlex]

theorem canonical_toDecStr (n : Nat) (h : 1 ≤ n) :
    isCanonicalDec (toDecStr n) := ⟨n, h, rfl⟩

theorem strKeyLt_iff_strVal (a b : String) (ha : isCanonicalDec a)
    (hb : isCanonicalDec b) :
    (strKeyLt a b = true ↔ strVal a < strVal b) := by
  obtain ⟨m, hm, rfl⟩ := ha
  obtain ⟨n, hn, rfl⟩ := hb
  rw [strVal_toDecStr, strVal_toDecStr]
  exact strKeyLt_toDecStr m n hm hn

theorem foldMax_canon (l : List String) :
    ∀ x : String, isCanonicalDec x → (∀ s ∈ l, isCanonicalDec s) →
      (l.foldl (fun acc y => if strKeyLt acc y then y else acc) x ∈ x :: l ∧
        isCanonicalDec
          (l.foldl (fun acc y => if strKeyLt acc y then y else acc) x) ∧
        strVal x ≤
          strVal (l.foldl (fun acc y => if strKeyLt acc y then y else acc) x) ∧
        ∀ s ∈ l, strVal s ≤
          strVal (l.foldl (fun acc y => if strKeyLt acc y then y else acc) x)) := by
  induction l with
  | nil =>
    intro x hx _
    exact ⟨List.mem_cons_self _ _, hx, le_rfl, by simp⟩
  | cons y ys ih =>
    intro x hx hl
    have hy : isCanonicalDec y := hl y (List.mem_cons_self _ _)
    have hys := fun s hs => hl s (List.mem_cons_of_mem _ hs)
    by_cases hk : strKeyLt x y = true
    · have hxy : strVal x < strVal y := (strKeyLt_iff_strVal x y hx hy).mp hk
      obtain ⟨m1, m2, m3, m4⟩ := ih y hy hys
      simp only [List.foldl_cons, if_pos hk]
      refine ⟨?_, m2, ?_, ?_⟩
      · exact List.mem_cons_of_mem _ m1
      · omega
      · intro s hs
        rcases List.mem_cons.mp hs with h | h
        · subst h; exact m3
        · exact m4 s h
    · have hk2 : strKeyLt x y = false := by simpa using hk
      have hxy : ¬ strVal x < strVal y := by
        intro hc
        rw [(strKeyLt_iff_strVal x y hx hy).mpr hc] at hk2
        exact absurd hk2 (by simp)
      obtain ⟨m1, m2, m3, m4⟩ := ih x hx hys
      simp only [List.foldl_cons, if_neg hk]
      refine ⟨?_, m2, m3, ?_⟩
      · rcases List.mem_cons.mp m1 with h | h
        · exact List.mem_cons.mpr (Or.inl h)
        · exact List.mem_cons_of_mem _ (List.mem_cons_of_mem _ h)
      · intro s hs
        rcases List.mem_cons.mp hs with h | h
        · subst h; omega
        · exact m4 s h

theorem max_int_num_canon (l : List String) (x : String) (d : String)
    (hc : ∀ s ∈ x :: l, isCanonicalDec s) :
    max_int_num (x :: l) d ∈ x :: l ∧
      ∀ s ∈ x :: l, strVal s ≤ strVal (max_int_num (x :: l) d) := by
  obtain ⟨m1, _, m3, m4⟩ := foldMax_canon l x
    (hc x (List.mem_cons_self _ _))
    (fun s hs => hc s (List.mem_cons_of_mem _ hs))
  refine ⟨m1, ?_⟩
  intro s hs
  rcases List.mem_cons.mp hs with h | h
  · subst h; exact m3
  · exact m4 s h

theorem strVal_zero_str : strVal "0" = 0 := rfl

theorem nextIndexNat_of_keys (W : Nat) (runs : Dict String)
    (h : dictKeys runs = (List.range' 1 W).map toDecStr) :
    nextIndexNat runs = W + 1 := by
  cases W with
  | zero =>
    rw [nextIndexNat, h]
    rfl
  | succ W =>
    have hL : (List.range' 1 (W + 1)).map toDecStr =
        toDecStr 1 :: (List.range' 2 W).map toDecStr := by
      rw [List.range'_succ]
      rfl
    have hcanon : ∀ s ∈ toDecStr 1 :: (List.range' 2 W).map toDecStr,
        isCanonicalDec s := by
      intro s hs
      rcases List.mem_cons.mp hs with hh | hh
      · subst hh
        exact canonical_toDecStr 1 le_rfl
      · obtain ⟨j, hj, rfl⟩ := List.mem_map.mp hh
        have := List.mem_range'_1.mp hj
        exact canonical_toDecStr j (by omega)
    obtain ⟨hm, hmax⟩ :=
      max_int_num_canon ((List.range' 2 W).map toDecStr) (toDecStr 1) "0"
        hcanon
    have hm2 : max_int_num (toDecStr 1 :: (List.range' 2 W).map toDecStr)
        "0" ∈ (List.range' 1 (W + 1)).map toDecStr := by
      rw [hL]
      exact hm
    obtain ⟨j, hj, hje⟩ := List.mem_map.mp hm2
    have hjr := List.mem_range'_1.mp hj
    have hW1 : toDecStr (W + 1) ∈
        toDecStr 1 :: (List.range' 2 W).map toDecStr := by
      rw [← hL]
      exact List.mem_map.mpr ⟨W + 1, List.mem_range'_1.mpr (by omega), rfl⟩
    have hle := hmax _ hW1
    rw [← hje, strVal_toDecStr, strVal_toDecStr] at hle
    rw [nextIndexNat, h, hL, ← hje, strVal_toDecStr]
    omega

theorem max_int_num_mem (l : List String) :
    ∀ x d : String, max_int_num (x :: l) d ∈ x :: l := by
  induction l with
  | nil => intro x d; simp [max_int_num]
  | cons y ys ih =>
    intro x d
    simp only [max_int_num, List.foldl_cons]
    by_cases hk : strKeyLt x y = true
    · have := ih y d
      simp only [max_int_num] at this
      rw [if_pos hk]
      exact List.mem_cons_of_mem _ this
    · have := ih x d
      simp only [max_int_num] at this
      rw [if_neg hk]
      rcases List.mem_cons.mp this with h | h
      · exact List.mem_cons.mpr (Or.inl h)
      · exact List.mem_cons_of_mem _ (List.mem_cons_of_mem _ h)

theorem dictGet?_isSome_of_mem {α : Type} (d : Dict α) (k : String)
    (h : k ∈ dictKeys d) : ∃ v, dictGet? d k = some v := by
  rcases hg : dictGet? d k with _ | v
  · exact absurd ((dictGet?_eq_none d k).mp hg) (by simp [h])
  · exact ⟨v, rfl⟩

/-- C9: over canonical decimal numerals the `(len, tuple)` maximum of
`max_int_num` is the numerically maximal string, and `get_last_status`
returns the record stored at a numerically maximal run-index key — or the
`{unknown, unknown}` sentinel exactly when the submission has no history
entries. -/
theorem spec_c9_max_numeric (d : String) (l : List String) (x : String)
    (subs : Dict (Dict StatusRec)) (sid : String) (h : Dict StatusRec) :
    ((∀ s ∈ x :: l, isCanonicalDec s) →
      (max_int_num (x :: l) d ∈ x :: l ∧
        ∀ s ∈ x :: l, strVal s ≤ strVal (max_int_num (x :: l) d))) ∧
    (dictGet? subs sid = some h → h ≠ [] →
      (∀ k ∈ dictKeys h, isCanonicalDec k) →
      ∃ k, k ∈ dictKeys h ∧
        (∀ k2 ∈ dictKeys h, strVal k2 ≤ strVal k) ∧
        dictGet? h k = some (get_last_status subs sid)) ∧
    ((dictGet? subs sid = none ∨ dictGet? subs sid = some []) →
      get_last_status subs sid = NO_STATUS) ∧
    (dictGet? subs sid = some h → (∀ q ∈ h, q.2 ≠ NO_STATUS) →
      (get_last_status subs sid = NO_STATUS ↔ h = [])) := by
  refine ⟨?_, ?_, ?_, ?_⟩
  · intro hc
    exact max_int_num_canon l x d hc
  · intro hg hne hc
    rcases hk : dictKeys h with _ | ⟨k0, ks⟩
    · cases h with
      | nil => exact absurd rfl hne
      | cons p t => simp [dictKeys_cons] at hk
    have hc2 : ∀ s ∈ k0 :: ks, isCanonicalDec s := by
      intro s hs
      apply hc
      rw [hk]
      exact hs
    obtain ⟨hm0, hmax0⟩ := max_int_num_canon ks k0 "" hc2
    have hmem : max_int_num (k0 :: ks) "" ∈ dictKeys h := by
      rw [hk]
      exact hm0
    obtain ⟨v, hv⟩ := dictGet?_isSome_of_mem h _ hmem
    refine ⟨max_int_num (k0 :: ks) "", hm0, hmax0, ?_⟩
    rw [hv]
    congr 1
    rw [get_last_status]
    simp only [hg, Option.getD_some]
    rw [if_neg (by simpa using hne)]
    rw [hk]
    simp [hv]
  · intro hg
    rcases hg with hg | hg
    · rw [get_last_status]
      simp [hg]
    · rw [get_last_status]
      simp [hg]
  · intro hg hq
    constructor
    · intro hlast
      by_contra hne
      rcases hk : dictKeys h with _ | ⟨k0, ks⟩
      · cases h with
        | nil => exact absurd rfl hne
        | cons p t => simp [dictKeys_cons] at hk
      · have hm0 := max_int_num_mem ks k0 ""
        have hmem : max_int_num (k0 :: ks) "" ∈ dictKeys h := by
          rw [hk]
          exact hm0
        obtain ⟨v, hv⟩ := dictGet?_isSome_of_mem h _ hmem
        have hvm := dictGet?_some_mem h _ v hv
        have hlast2 : get_last_status subs sid = v := by
          rw [get_last_status]
          simp only [hg, Option.getD_some]
          rw [if_neg (by simpa using hne)]
          rw [hk]
          simp [hv]
        have hveq : v = NO_STATUS := by
          rw [← hlast2]
          exact hlast
        exact (hq _ hvm) hveq
    · intro he
      rw [get_last_status]
      simp [hg, he]

/-- C9 witness: the theorem applied to the concrete key set
`{"2", "10", "9"}` (numeric maximum `"10"`, which length-first ordering
finds) and to a submission with no history. -/
theorem spec_c9_max_numeric_witness :
    (max_int_num ["2", "10", "9"] "" ∈ ["2", "10", "9"] ∧
      ∀ s ∈ ["2", "10", "9"], strVal s ≤ strVal (max_int_num ["2", "10", "9"] "")) ∧
      get_last_status [("7", [("1", ⟨"unclaimed", none⟩)])] "9" = NO_STATUS := by
  constructor
  · exact (spec_c9_max_numeric "" ["10", "9"] "2" [] "" []).1
      (by
        intro s hs
        simp at hs
        rcases hs with rfl | rfl | rfl
        · exact ⟨2, by omega, by decide⟩
        · exact ⟨10, by omega, by decide⟩
        · exact ⟨9, by omega, by decide⟩)
  · exact (spec_c9_max_numeric "" [] ""
      [("7", [("1", ⟨"unclaimed", none⟩)])] "9" []).2.2.1
      (Or.inl (by decide))

/-! ### Provenance and well-formedness preservation -/

theorem mem_dictInsert_strong {α : Type} (d : Dict α) (k : String) (v : α)
    (p : String × α) (h : p ∈ dictInsert d k v) :
    p ∈ d ∨ (p.1 = k ∧ p.2 = v) := by
  induction d with
  | nil =>
    simp [dictInsert] at h
    simp [h]
  | cons p2 rest ih =>
    obtain ⟨k2, v2⟩ := p2
    by_cases h2 : k2 = k
    · subst h2
      simp only [dictInsert, if_pos rfl] at h
      rcases List.mem_cons.mp h with h3 | h3
      · subst h3
        exact Or.inr ⟨rfl, rfl⟩
      · exact Or.inl (List.mem_cons_of_mem _ h3)
    · simp only [dictInsert, if_neg h2] at h
      rcases List.mem_cons.mp h with h3 | h3
      · subst h3
        exact Or.inl (List.mem_cons_self _ _)
      · rcases ih h3 with h4 | h4
        · exact Or.inl (List.mem_cons_of_mem _ h4)
        · exact Or.inr h4

theorem SubsExt_refl (d : Dict (Dict StatusRec)) (idx : String) :
    SubsExt d d idx := by
  intro p hp q hq
  exact Or.inr ⟨p, hp, rfl, hq⟩

theorem SubsExt_trans (a b c : Dict (Dict StatusRec)) (idx : String)
    (h1 : SubsExt a b idx) (h2 : SubsExt b c idx) : SubsExt a c idx := by
  intro p hp q hq
  rcases h2 p hp q hq with h | ⟨p0, hp0, he, hq0⟩
  · exact Or.inl h
  · rcases h1 p0 hp0 q hq0 with h | ⟨p1, hp1, he1, hq1⟩
    · exact Or.inl h
    · exact Or.inr ⟨p1, hp1, he1.trans he, hq1⟩

theorem save_status_ext (subs : Dict (Dict StatusRec)) (idx sid : String)
    (v : StatusRec) : SubsExt subs (save_status subs idx sid v) idx := by
  intro p hp q hq
  rcases mem_dictInsert_strong _ _ _ _ hp with h | ⟨h1, h2⟩
  · exact Or.inr ⟨p, h, rfl, hq⟩
  · rw [h2] at hq
    rcases mem_dictInsert _ _ _ _ hq with h3 | h3
    · rcases hg : dictGet? subs sid with _ | h0
      · rw [hg] at h3
        simp at h3
      · rw [hg] at h3
        simp only [Option.getD_some] at h3
        exact Or.inr ⟨(sid, h0), dictGet?_some_mem _ _ _ hg, h1.symm, h3⟩
    · exact Or.inl h3

theorem pS_ext (i : String) (st : TrackState) (s : Submission) :
    SubsExt st.submissions (processSubmission i st s).submissions i := by
  simp only [processSubmission]
  repeat' split
  all_goals first
    | exact SubsExt_refl _ _
    | exact save_status_ext _ _ _ _

theorem mD_ext (i : String) (st : TrackState) (sid : String) :
    SubsExt st.submissions (markDeleted i st sid).submissions i := by
  simp only [markDeleted]
  repeat' split
  all_goals first
    | exact SubsExt_refl _ _
    | exact save_status_ext _ _ _ _

theorem foldPS_ext (i : String) (subs : List Submission) :
    ∀ st : TrackState,
      SubsExt st.submissions
        (subs.foldl (processSubmission i) st).submissions i := by
  induction subs with
  | nil => intro st; exact SubsExt_refl _ _
  | cons s rest ih =>
    intro st
    exact SubsExt_trans _ _ _ _ (pS_ext i st s) (ih (processSubmission i st s))

theorem foldMD_ext (i : String) (dels : List String) :
    ∀ st : TrackState,
      SubsExt st.submissions
        (dels.foldl (markDeleted i) st).submissions i := by
  induction dels with
  | nil => intro st; exact SubsExt_refl _ _
  | cons d rest ih =>
    intro st
    exact SubsExt_trans _ _ _ _ (mD_ext i st d) (ih (markDeleted i st d))

theorem save_status_nodup (subs : Dict (Dict StatusRec)) (idx sid : String)
    (v : StatusRec) (h : (dictKeys subs).Nodup) :
    (dictKeys (save_status subs idx sid v)).Nodup :=
  dictKeys_nodup_insert _ _ _ h

theorem pS_nodup (i : String) (st : TrackState) (s : Submission)
    (h : (dictKeys st.submissions).Nodup) :
    (dictKeys (processSubmission i st s).submissions).Nodup := by
  simp only [processSubmission]
  repeat' split
  all_goals first
    | exact h
    | exact save_status_nodup _ _ _ _ h

theorem mD_nodup (i : String) (st : TrackState) (sid : String)
    (h : (dictKeys st.submissions).Nodup) :
    (dictKeys (markDeleted i st sid).submissions).Nodup := by
  simp only [markDeleted]
  repeat' split
  all_goals first
    | exact h
    | exact save_status_nodup _ _ _ _ h

theorem foldPS_nodup (i : String) (subs : List Submission) :
    ∀ st : TrackState, (dictKeys st.submissions).Nodup →
      (dictKeys (subs.foldl (processSubmission i) st).submissions).Nodup := by
  induction subs with
  | nil => intro st h; exact h
  | cons s rest ih =>
    intro st h
    exact ih _ (pS_nodup i st s h)

theorem foldMD_nodup (i : String) (dels : List String) :
    ∀ st : TrackState, (dictKeys st.submissions).Nodup →
      (dictKeys (dels.foldl (markDeleted i) st).submissions).Nodup := by
  induction dels with
  | nil => intro st h; exact h
  | cons d rest ih =>
    intro st h
    exact ih _ (mD_nodup i st d h)

theorem toDecStr_not_mem_range (W : Nat) :
    toDecStr (W + 1) ∉ (List.range' 1 W).map toDecStr := by
  intro hmem
  obtain ⟨j, hj, hje⟩ := List.mem_map.mp hmem
  have := List.mem_range'_1.mp hj
  have := toDecStr_inj _ _ hje
  omega

theorem trackRun_idx_some (subs : List Submission) (c : AggData) :
    (trackRun subs (some c)).2 = toDecStr (nextIndexNat c.runs) := rfl

theorem trackRun_idx_none (subs : List Submission) :
    (trackRun subs none).2 = toDecStr 1 := rfl

theorem trackRun_ext (subs : List Submission) (copt : Option AggData) :
    SubsExt (subsOf copt) (trackRun subs copt).1.submissions
      (trackRun subs copt).2 := by
  cases copt with
  | none =>
    simp only [trackRun, subsOf]
    exact SubsExt_trans _ _ _ _ (foldPS_ext _ subs _) (foldMD_ext _ _ _)
  | some c =>
    simp only [trackRun, subsOf]
    exact SubsExt_trans _ _ _ _ (foldPS_ext _ subs _) (foldMD_ext _ _ _)

theorem trackRun_nodup (subs : List Submission) (copt : Option AggData)
    (h : (dictKeys (subsOf copt)).Nodup) :
    (dictKeys (trackRun subs copt).1.submissions).Nodup := by
  cases copt with
  | none =>
    simp only [trackRun, subsOf] at h ⊢
    exact foldMD_nodup _ _ _ (foldPS_nodup _ subs _ h)
  | some c =>
    simp only [trackRun, subsOf] at h ⊢
    exact foldMD_nodup _ _ _ (foldPS_nodup _ subs _ h)

theorem trackRun_no_write (subs : List Submission) (copt : Option AggData)
    (h : trackWrote subs copt = false) :
    (trackRun subs copt).1.submissions = subsOf copt := by
  rw [trackWrote] at h
  cases copt with
  | none =>
    simp only [trackRun, subsOf] at h ⊢
    obtain ⟨h1, h2⟩ := foldMD_no_write _ _ _ h
    obtain ⟨h3, _⟩ := foldPS_no_write _ subs _ h2
    exact h1.trans h3
  | some c =>
    simp only [trackRun, subsOf] at h ⊢
    obtain ⟨h1, h2⟩ := foldMD_no_write _ _ _ h
    obtain ⟨h3, _⟩ := foldPS_no_write _ subs _ h2
    exact h1.trans h3

theorem check_data_submissions (subs : List Submission) (ts : String)
    (copt : Option AggData) :
    (check_assignment_updates subs ts copt).data.submissions =
      (trackRun subs copt).1.submissions := rfl

theorem check_data_runs (subs : List Submission) (ts : String)
    (copt : Option AggData) :
    (check_assignment_updates subs ts copt).data.runs =
      (if trackWrote subs copt then
        dictInsert (runsOf copt) (trackRun subs copt).2 ts
      else runsOf copt) := by
  cases copt <;> rfl

theorem check_WF (W : Nat) (copt : Option AggData) (subs : List Submission)
    (ts : String) (hWF : WFopt W copt) :
    (trackWrote subs copt = true →
      WFAgg (W + 1) (check_assignment_updates subs ts copt).data ∧
        (check_assignment_updates subs ts copt).data.runs =
          runsOf copt ++ [(toDecStr (W + 1), ts)]) ∧
    (trackWrote subs copt = false →
      WFAgg W (check_assignment_updates subs ts copt).data ∧
        (check_assignment_updates subs ts copt).data.runs = runsOf copt) := by
  have hkeys0 : dictKeys (runsOf copt) = (List.range' 1 W).map toDecStr := by
    cases copt with
    | none =>
      rw [WFopt] at hWF
      subst hWF
      rfl
    | some c => exact hWF.1
  have hidx : (trackRun subs copt).2 = toDecStr (W + 1) := by
    cases copt with
    | none =>
      rw [WFopt] at hWF
      subst hWF
      rfl
    | some c =>
      rw [trackRun_idx_some, nextIndexNat_of_keys W c.runs hWF.1]
  have hfresh : dictGet? (runsOf copt) (toDecStr (W + 1)) = none := by
    rw [dictGet?_eq_none, hkeys0]
    exact toDecStr_not_mem_range W
  have hnodup0 : (dictKeys (subsOf copt)).Nodup := by
    cases copt with
    | none => simp [subsOf, dictKeys]
    | some c => exact hWF.2.1
  have hext : SubsExt (subsOf copt) (trackRun subs copt).1.submissions
      (toDecStr (W + 1)) := by
    rw [← hidx]
    exact trackRun_ext subs copt
  constructor
  · intro hw
    have hruns : (check_assignment_updates subs ts copt).data.runs =
        runsOf copt ++ [(toDecStr (W + 1), ts)] := by
      rw [check_data_runs, if_pos hw, hidx, dictInsert_fresh_append _ _ _ hfresh]
    refine ⟨⟨?_, ?_, ?_⟩, hruns⟩
    · rw [hruns, dictKeys, List.map_append]
      rw [dictKeys] at hkeys0
      rw [hkeys0, List.range'_1_concat, List.map_append]
      simp [Nat.add_comm 1 W]
    · rw [check_data_submissions]
      exact trackRun_nodup subs copt hnodup0
    · intro p hp q hq
      rw [check_data_submissions] at hp
      rw [hruns]
      show q.1 ∈ dictKeys (runsOf copt ++ [(toDecStr (W + 1), ts)])
      rw [dictKeys, List.map_append]
      rcases hext p hp q hq with h | ⟨p0, hp0, _, hq0⟩
      · apply List.mem_append_right
        simp [h, dictKeys]
      · apply List.mem_append_left
        cases copt with
        | none => simp [subsOf] at hp0
        | some c => exact hWF.2.2 p0 hp0 q hq0
  · intro hw
    have hruns : (check_assignment_updates subs ts copt).data.runs =
        runsOf copt := by
      rw [check_data_runs, if_neg (by simp [hw])]
    refine ⟨⟨?_, ?_, ?_⟩, hruns⟩
    · rw [hruns]
      exact hkeys0
    · rw [check_data_submissions]
      exact trackRun_nodup subs copt hnodup0
    · intro p hp q hq
      rw [check_data_submissions, trackRun_no_write subs copt hw] at hp
      rw [hruns]
      cases copt with
      | none => simp [subsOf] at hp
      | some c => exact hWF.2.2 p hp q hq

theorem countWrites_cons (i : Nat) (w : Bool) (t : List (Nat × Bool)) :
    countWrites ((i, w) :: t) = countWrites t + (if w then 1 else 0) := by
  simp [countWrites, List.countP_cons]

theorem iterTrace_WF (calls : List (List Submission × String)) :
    ∀ (W : Nat) (copt : Option AggData), WFopt W copt →
      TraceSpec W (iterTrackTrace calls copt).2 ∧
        runsKeysOpt (iterTrackTrace calls copt).1 =
          (List.range' 1
            (W + countWrites (iterTrackTrace calls copt).2)).map toDecStr := by
  induction calls with
  | nil =>
    intro W copt hWF
    refine ⟨trivial, ?_⟩
    cases copt with
    | none =>
      rw [WFopt] at hWF
      subst hWF
      rfl
    | some c =>
      simpa [iterTrackTrace, runsKeysOpt, countWrites] using hWF.1
  | cons call rest ih =>
    intro W copt hWF
    obtain ⟨subs, ts⟩ := call
    cases copt with
    | none =>
      rw [WFopt] at hWF
      subst hWF
      rcases hw : trackWrote subs none with _ | _
      · have hstep := (check_WF 0 none subs ts (by rw [WFopt])).2 hw
        have hih := ih 0 (some (check_assignment_updates subs ts none).data)
          hstep.1
        simp only [iterTrackTrace, hw]
        refine ⟨⟨rfl, ?_⟩, ?_⟩
        · simpa using hih.1
        · rw [countWrites_cons]
          simpa using hih.2
      · have hstep := (check_WF 0 none subs ts (by rw [WFopt])).1 hw
        have hih := ih 1 (some (check_assignment_updates subs ts none).data)
          hstep.1
        simp only [iterTrackTrace, hw]
        refine ⟨⟨rfl, ?_⟩, ?_⟩
        · simpa using hih.1
        · rw [countWrites_cons]
          have harith : 0 + (countWrites (iterTrackTrace rest
              (some (check_assignment_updates subs ts none).data)).2 +
                (if true then 1 else 0)) =
              1 + countWrites (iterTrackTrace rest
                (some (check_assignment_updates subs ts none).data)).2 := by
            simp
            omega
          rw [harith]
          simpa using hih.2
    | some c =>
      have hidx : nextIndexNat c.runs = W + 1 :=
        nextIndexNat_of_keys W c.runs hWF.1
      rcases hw : trackWrote subs (some c) with _ | _
      · have hstep := (check_WF W (some c) subs ts hWF).2 hw
        have hih := ih W
          (some (check_assignment_updates subs ts (some c)).data) hstep.1
        simp only [iterTrackTrace, hw]
        refine ⟨⟨hidx, ?_⟩, ?_⟩
        · simpa using hih.1
        · rw [countWrites_cons]
          simpa using hih.2
      · have hstep := (check_WF W (some c) subs ts hWF).1 hw
        have hih := ih (W + 1)
          (some (check_assignment_updates subs ts (some c)).data) hstep.1
        simp only [iterTrackTrace, hw]
        refine ⟨⟨hidx, ?_⟩, ?_⟩
        · simpa using hih.1
        · rw [countWrites_cons]
          have harith : W + (countWrites (iterTrackTrace rest
              (some (check_assignment_updates subs ts (some c)).data)).2 +
                (if true then 1 else 0)) =
              W + 1 + countWrites (iterTrackTrace rest
                (some (check_assignment_updates subs ts (some c)).data)).2 := by
            simp
            omega
          rw [harith]
          simpa using hih.2

/-- C8 amended: every call allocates run index `max(logged indices) + 1` —
so the `k`-th call allocates `W_k + 1` where `W_k` counts the earlier calls
that logged a write (`TraceSpec`), the counter advances only on writing
calls (a no-write call's index is reused), and after any `N`-call sequence
the logged run indices are exactly the numerals `1 … W` for `W` the number
of writing calls. -/
theorem spec_c8_amended (calls : List (List Submission × String)) :
    TraceSpec 0 (iterTrackTrace calls none).2 ∧
      runsKeysOpt (iterTrackTrace calls none).1 =
        (List.range' 1
          (countWrites (iterTrackTrace calls none).2)).map toDecStr := by
  have h := iterTrace_WF calls 0 none (by rw [WFopt])
  refine ⟨h.1, ?_⟩
  simpa using h.2

theorem pS_first_updated (i : String) (st : TrackState) (s : Submission)
    (hget : dictGet? st.submissions s.id = none) :
    (processSubmission i st s).updated_status = true := by
  have hlast : get_last_status st.submissions s.id = NO_STATUS := by
    rw [get_last_status]
    simp [hget]
  simp only [processSubmission, hlast]
  repeat' split
  all_goals simp_all [NO_STATUS]

theorem trackWrote_none (subs : List Submission) :
    trackWrote subs none = !subs.isEmpty := by
  cases subs with
  | nil => rfl
  | cons s rest =>
    simp only [trackWrote, trackRun, List.foldl_cons, List.isEmpty_cons,
      Bool.not_false]
    apply foldMD_updated_mono
    apply foldPS_updated_mono
    exact pS_first_updated _ _ s rfl

theorem check_changed_unfold (subs : List Submission) (ts : String)
    (copt : Option AggData) :
    (check_assignment_updates subs ts copt).changed =
      (if (trackRun subs copt).1.updated_status then true
       else if (trackRun subs copt).1.num_total == 0 ||
           (trackRun subs copt).1.num_finalized == 0 then false
       else
         match copt with
         | none => true
         | some c =>
           !(c.total == (check_assignment_updates subs ts copt).data.total) ||
             !(c.finalized ==
               (check_assignment_updates subs ts copt).data.finalized) ||
             !(c.drafts ==
               (check_assignment_updates subs ts copt).data.drafts) ||
             !(c.unclaimed ==
               (check_assignment_updates subs ts copt).data.unclaimed)) := rfl

theorem check_runs_ne_iff (subs : List Submission) (ts : String)
    (copt : Option AggData) (W : Nat) (hWF : WFopt W copt) :
    ((check_assignment_updates subs ts copt).data.runs ≠ runsOf copt ↔
      trackWrote subs copt = true) := by
  constructor
  · intro hne
    rcases hw : trackWrote subs copt with _ | _
    · exact absurd ((check_WF W copt subs ts hWF).2 hw).2 hne
    · rfl
  · intro hw
    rw [((check_WF W copt subs ts hWF).1 hw).2]
    intro heq
    have := congrArg List.length heq
    simp at this

/-- C5 amended: the returned `changed` flag is true iff a history write
occurred this call (observable as the run log having grown), OR
`total > 0` and `finalized > 0` and (no prior history existed, or one of the
four counts differs from the prior aggregate); in particular a first run
yields `changed = true` exactly when the live submission list is
non-empty. -/
theorem spec_c5_amended (subs : List Submission) (ts : String)
    (copt : Option AggData) (W : Nat) (hWF : WFopt W copt) :
    ((check_assignment_updates subs ts copt).changed = true ↔
      ((check_assignment_updates subs ts copt).data.runs ≠ runsOf copt ∨
        (0 < (check_assignment_updates subs ts copt).data.total ∧
          0 < (check_assignment_updates subs ts copt).data.finalized ∧
          optCountsDiffer copt
            (check_assignment_updates subs ts copt).data))) ∧
    (copt = none →
      ((check_assignment_updates subs ts copt).changed = true ↔
        subs ≠ [])) := by
  have hrw := check_runs_ne_iff subs ts copt W hWF
  have htot : (check_assignment_updates subs ts copt).data.total =
      (trackRun subs copt).1.num_total := rfl
  have hfin : (check_assignment_updates subs ts copt).data.finalized =
      (trackRun subs copt).1.num_finalized := rfl
  constructor
  · rw [check_changed_unfold]
    rcases hw : trackWrote subs copt with _ | _
    · have hw2 : (trackRun subs copt).1.updated_status = false := hw
      rw [hw2]
      simp only [if_false, Bool.false_eq_true]
      have hrw2 : ¬ ((check_assignment_updates subs ts copt).data.runs ≠
          runsOf copt) := by
        rw [hrw, hw]
        simp
      by_cases h0 : ((trackRun subs copt).1.num_total == 0 ||
          (trackRun subs copt).1.num_finalized == 0) = true
      · rw [if_pos h0]
        simp only [Bool.or_eq_true, beq_iff_eq] at h0
        constructor
        · intro hc
          exact absurd hc (by simp)
        · intro hc
          rcases hc with hc | ⟨h1, h2, _⟩
          · exact absurd hc hrw2
          · rw [htot] at h1
            rw [hfin] at h2
            omega
      · rw [if_neg h0]
        simp only [Bool.or_eq_true, beq_iff_eq, not_or] at h0
        cases copt with
        | none =>
          simp only [optCountsDiffer]
          constructor
          · intro _
            refine Or.inr ⟨?_, ?_, trivial⟩
            · rw [htot]; omega
            · rw [hfin]; omega
          · intro _
            simp
        | some c =>
          simp only [optCountsDiffer, countsDiffer]
          constructor
          · intro hc
            refine Or.inr ⟨by rw [htot]; omega, by rw [hfin]; omega, ?_⟩
            simp only [Bool.or_eq_true, Bool.not_eq_true', beq_eq_false_iff_ne,
              ne_eq] at hc
            tauto
          · intro hc
            rcases hc with hc | ⟨_, _, hd⟩
            · exact absurd hc hrw2
            · simp only [Bool.or_eq_true, Bool.not_eq_true',
                beq_eq_false_iff_ne, ne_eq]
              tauto
    · have hw2 : (trackRun subs copt).1.updated_status = true := hw
      rw [hw2]
      simp only [if_true]
      constructor
      · intro _
        refine Or.inl ?_
        rw [hrw]
        exact hw
      · intro _
        trivial
  · intro hnone
    subst hnone
    rw [check_changed_unfold]
    rcases hw : trackWrote subs none with _ | _
    · rw [trackWrote_none] at hw
      have hsub : subs = [] := by
        cases subs with
        | nil => rfl
        | cons s rest => simp at hw
      subst hsub
      simp [trackRun]
    · have hw2 : (trackRun subs none).1.updated_status = true := hw
      rw [trackWrote_none] at hw
      have hsub : subs ≠ [] := by
        cases subs with
        | nil => simp at hw
        | cons s rest => simp
      rw [hw2]
      simp [hsub]

/-- C5 witness: the amended theorem's first-run clause at a concrete
one-submission list. -/
theorem spec_c5_amended_witness :
    WFopt 0 (none : Option AggData) ∧
      ((check_assignment_updates [⟨"1", false, none⟩] "t" none).changed =
          true ↔ ([⟨"1", false, none⟩] : List Submission) ≠ []) := by
  constructor
  · rw [WFopt]
  · exact (spec_c5_amended [⟨"1", false, none⟩] "t" none 0 (by rw [WFopt])).2
      rfl

theorem pS_noop (i : String) (st : TrackState) (s : Submission)
    (hlast : get_last_status st.submissions s.id = curOf s) :
    (processSubmission i st s).submissions = st.submissions ∧
      (processSubmission i st s).updated_status = st.updated_status := by
  simp only [processSubmission, hlast]
  repeat' split
  all_goals simp_all [curOf, statusOf]

theorem foldPS_noop (i : String) (subs : List Submission) :
    ∀ st : TrackState,
      (∀ s ∈ subs, get_last_status st.submissions s.id = curOf s) →
      (subs.foldl (processSubmission i) st).submissions = st.submissions ∧
        (subs.foldl (processSubmission i) st).updated_status =
          st.updated_status := by
  induction subs with
  | nil => intro st _; exact ⟨rfl, rfl⟩
  | cons s rest ih =>
    intro st hl
    obtain ⟨h1, h2⟩ := pS_noop i st s (hl s (List.mem_cons_self _ _))
    have hrest : ∀ s2 ∈ rest,
        get_last_status (processSubmission i st s).submissions s2.id =
          curOf s2 := by
      intro s2 hs2
      rw [h1]
      exact hl s2 (List.mem_cons_of_mem _ hs2)
    obtain ⟨g1, g2⟩ := ih (processSubmission i st s) hrest
    exact ⟨g1.trans h1, g2.trans h2⟩

theorem pS_write_subm (i : String) (st : TrackState) (s : Submission)
    (hget : dictGet? st.submissions s.id = none) :
    (processSubmission i st s).submissions =
      st.submissions ++ [(s.id, [(i, curOf s)])] := by
  have hlast : get_last_status st.submissions s.id = NO_STATUS := by
    rw [get_last_status]
    simp [hget]
  have happ : save_status st.submissions i s.id (curOf s) =
      st.submissions ++ [(s.id, [(i, curOf s)])] := by
    rw [save_status, hget]
    simp only [Option.getD_none]
    rw [dictInsert_fresh_append _ _ _ hget]
    rfl
  simp only [processSubmission, hlast]
  repeat' split
  all_goals simp_all [curOf, statusOf, NO_STATUS]

theorem foldPS_fresh (i : String) (subs : List Submission) :
    ∀ st : TrackState,
      (∀ s ∈ subs, dictGet? st.submissions s.id = none) →
      (subs.map Submission.id).Nodup →
      (subs.foldl (processSubmission i) st).submissions =
        st.submissions ++ subs.map (fun s => (s.id, [(i, curOf s)])) := by
  induction subs with
  | nil => intro st _ _; simp
  | cons s rest ih =>
    intro st hget hnd
    have h1 := pS_write_subm i st s (hget s (List.mem_cons_self _ _))
    have hnd2 : (rest.map Submission.id).Nodup := (List.nodup_cons.mp hnd).2
    have hnin : s.id ∉ rest.map Submission.id := (List.nodup_cons.mp hnd).1
    have hget2 : ∀ s2 ∈ rest,
        dictGet? (processSubmission i st s).submissions s2.id = none := by
      intro s2 hs2
      rw [h1, dictGet?_append_right _ _ _ (hget s2 (List.mem_cons_of_mem _ hs2))]
      have hne : s.id ≠ s2.id := by
        intro he
        exact hnin (he ▸ List.mem_map_of_mem Submission.id hs2)
      simp [dictGet?, hne]
    rw [List.foldl_cons, ih (processSubmission i st s) hget2 hnd2, h1]
    simp

theorem foldPS_deleted (i : String) (subs : List Submission) :
    ∀ st : TrackState,
      (subs.foldl (processSubmission i) st).deleted =
        st.deleted.filter
          (fun x => !(subs.any (fun s2 => s2.id == x))) := by
  induction subs with
  | nil =>
    intro st
    simp
  | cons s rest ih =>
    intro st
    rw [List.foldl_cons, ih (processSubmission i st s), pS_deleted,
      List.filter_filter]
    apply List.filter_congr
    intro x _
    by_cases he : x = s.id
    · subst he
      simp
    · simp [he, Ne.symm he]

theorem dictGet?_map_of_mem {α : Type} (f : Submission → α)
    (subs : List Submission) :
    ∀ s : Submission, (subs.map Submission.id).Nodup → s ∈ subs →
      dictGet? (subs.map (fun s2 => (s2.id, f s2))) s.id = some (f s) := by
  induction subs with
  | nil => intro s _ hs; simp at hs
  | cons a rest ih =>
    intro s hnd hs
    rcases List.mem_cons.mp hs with he | hmem
    · subst he
      simp [dictGet?]
    · have hnin : a.id ∉ rest.map Submission.id := (List.nodup_cons.mp hnd).1
      have hne : a.id ≠ s.id := by
        intro he
        exact hnin (he ▸ List.mem_map_of_mem Submission.id hmem)
      simp only [List.map_cons, dictGet?, if_neg hne]
      exact ih s (List.nodup_cons.mp hnd).2 hmem

theorem get_last_status_single (subs : Dict (Dict StatusRec)) (sid : String)
    (k : String) (v : StatusRec) (h : dictGet? subs sid = some [(k, v)]) :
    get_last_status subs sid = v := by
  rw [get_last_status]
  simp [h, max_int_num, dictKeys, dictGet?]

theorem check_first_submissions (subs : List Submission) (ts : String)
    (hnd : (subs.map Submission.id).Nodup) :
    (check_assignment_updates subs ts none).data.submissions =
      subs.map (fun s => (s.id, [(toDecStr 1, curOf s)])) := by
  rw [check_data_submissions]
  show (trackRun subs none).1.submissions = _
  simp only [trackRun]
  have hfold := foldPS_fresh (toDecStr 1) subs
    ⟨[], false, [], 0, 0, 0, 0, []⟩ (fun s _ => rfl) hnd
  have hdel := foldPS_deleted (toDecStr 1) subs
    ⟨[], false, [], 0, 0, 0, 0, []⟩
  simp only [List.filter_nil] at hdel
  rw [hdel, List.foldl_nil, hfold]
  simp

/-- C6: idempotence of the tracker — a first call with no prior history
followed by a second call on the identical live submissions (fed the first
call's aggregate) yields `changed = false` on the second call, with the run
log and the submission histories unchanged.  Live lists are assumed to carry
pairwise-distinct submission ids, as a live fetch does. -/
theorem spec_c6_idempotent (subs : List Submission) (ts1 ts2 : String)
    (hnd : (subs.map Submission.id).Nodup) :
    (check_assignment_updates subs ts2
        (some (check_assignment_updates subs ts1 none).data)).changed =
      false ∧
    (check_assignment_updates subs ts2
        (some (check_assignment_updates subs ts1 none).data)).data.runs =
      (check_assignment_updates subs ts1 none).data.runs ∧
    (check_assignment_updates subs ts2
        (some (check_assignment_updates subs ts1 none).data)).data.submissions
      = (check_assignment_updates subs ts1 none).data.submissions := by
  set d1 := (check_assignment_updates subs ts1 none).data with hd1
  have hsub1 : d1.submissions =
      subs.map (fun s => (s.id, [(toDecStr 1, curOf s)])) :=
    check_first_submissions subs ts1 hnd
  have hlast : ∀ s ∈ subs,
      get_last_status d1.submissions s.id = curOf s := by
    intro s hs
    apply get_last_status_single _ _ (toDecStr 1) (curOf s)
    rw [hsub1]
    exact dictGet?_map_of_mem _ subs s hnd hs
  have hkeys : dictKeys d1.submissions = subs.map Submission.id := by
    rw [hsub1, dictKeys, List.map_map]
    rfl
  -- the second call's combined state
  have hnoop := foldPS_noop (toDecStr (nextIndexNat d1.runs)) subs
    ⟨d1.submissions, false, dictKeys d1.submissions, 0, 0, 0, 0, []⟩ hlast
  have hdel := foldPS_deleted (toDecStr (nextIndexNat d1.runs)) subs
    ⟨d1.submissions, false, dictKeys d1.submissions, 0, 0, 0, 0, []⟩
  have hdelnil : (subs.foldl
      (processSubmission (toDecStr (nextIndexNat d1.runs)))
      ⟨d1.submissions, false, dictKeys d1.submissions, 0, 0, 0, 0, []⟩).deleted
      = [] := by
    rw [hdel]
    apply List.filter_eq_nil_iff.mpr
    intro x hx
    rw [hkeys] at hx
    obtain ⟨s, hs, rfl⟩ := List.mem_map.mp hx
    simp
    exact ⟨s, hs, rfl⟩
  have hst2 : (trackRun subs (some d1)).1 =
      subs.foldl (processSubmission (toDecStr (nextIndexNat d1.runs)))
        ⟨d1.submissions, false, dictKeys d1.submissions, 0, 0, 0, 0, []⟩ := by
    simp only [trackRun]
    rw [hdelnil]
    rfl
  have hw : trackWrote subs (some d1) = false := by
    rw [trackWrote, hst2]
    exact hnoop.2
  have hsubs2 : (trackRun subs (some d1)).1.submissions = d1.submissions := by
    rw [hst2]
    exact hnoop.1
  refine ⟨?_, ?_, ?_⟩
  · rw [check_changed_unfold]
    have hw2 : (trackRun subs (some d1)).1.updated_status = false := hw
    rw [hw2]
    simp only [if_false, Bool.false_eq_true]
    by_cases h0 : ((trackRun subs (some d1)).1.num_total == 0 ||
        (trackRun subs (some d1)).1.num_finalized == 0) = true
    · rw [if_pos h0]
    · rw [if_neg h0]
      obtain ⟨c1, c2, c3, c4⟩ := check_data_counts subs ts2 (some d1)
      obtain ⟨g1, g2, g3, g4⟩ := trackRun_counts subs (some d1)
      obtain ⟨e1, e2, e3, e4⟩ := check_data_counts subs ts1 none
      obtain ⟨f1, f2, f3, f4⟩ := trackRun_counts subs none
      have ht : d1.total = (check_assignment_updates subs ts2
          (some d1)).data.total := by
        rw [c1, g1, hd1, e1, f1]
      have hf : d1.finalized = (check_assignment_updates subs ts2
          (some d1)).data.finalized := by
        rw [c2, g2, hd1, e2, f2]
      have hdr : d1.drafts = (check_assignment_updates subs ts2
          (some d1)).data.drafts := by
        rw [c3, g3, hd1, e3, f3]
      have hu : d1.unclaimed = (check_assignment_updates subs ts2
          (some d1)).data.unclaimed := by
        rw [c4, g4, hd1, e4, f4]
      simp [← ht, ← hf, ← hdr, ← hu]
  · rw [check_data_runs, if_neg (by simp [hw])]
    rfl
  · rw [check_data_submissions]
    exact hsubs2

/-- C6 witness: the theorem at the spec's own two-submission example. -/
theorem spec_c6_idempotent_witness :
    ((([⟨"1", true, some "a"⟩, ⟨"2", false, none⟩] :
        List Submission).map Submission.id).Nodup) ∧
      (check_assignment_updates [⟨"1", true, some "a"⟩, ⟨"2", false, none⟩]
        "L2" (some (check_assignment_updates
          [⟨"1", true, some "a"⟩, ⟨"2", false, none⟩] "L1" none).data)).changed
        = false := by
  constructor
  · decide
  · exact (spec_c6_idempotent [⟨"1", true, some "a"⟩, ⟨"2", false, none⟩]
      "L1" "L2" (by decide)).1

theorem get_last_congr (a b : Dict (Dict StatusRec)) (sid : String)
    (h : dictGet? a sid = dictGet? b sid) :
    get_last_status a sid = get_last_status b sid := by
  rw [get_last_status, get_last_status, h]

theorem mD_self_skip (i : String) (st : TrackState) (sid : String)
    (hlast : get_last_status st.submissions sid = ⟨"deleted", none⟩) :
    markDeleted i st sid = st := by
  rw [markDeleted]
  split
  · rfl
  · rw [if_pos hlast]

theorem mD_self_write (i : String) (st : TrackState) (sid : String)
    (hmem : dictMem st.submissions sid = true)
    (hlast : get_last_status st.submissions sid ≠ ⟨"deleted", none⟩) :
    (markDeleted i st sid).submissions =
      save_status st.submissions i sid ⟨"deleted", none⟩ := by
  rw [markDeleted]
  split
  · simp_all
  · rw [if_neg hlast]

theorem foldMD_once (i : String) (dels : List String) :
    ∀ (st : TrackState) (sid : String) (h : Dict StatusRec),
      dels.Nodup → sid ∈ dels → dictGet? st.submissions sid = some h →
      (get_last_status st.submissions sid ≠ ⟨"deleted", none⟩ →
        dictGet? (dels.foldl (markDeleted i) st).submissions sid =
          some (dictInsert h i ⟨"deleted", none⟩)) ∧
      (get_last_status st.submissions sid = ⟨"deleted", none⟩ →
        dictGet? (dels.foldl (markDeleted i) st).submissions sid =
          some h) := by
  induction dels with
  | nil => intro st sid h _ hmem _; simp at hmem
  | cons d rest ih =>
    intro st sid h hnd hmem hget
    obtain ⟨hnin, hnd2⟩ := List.nodup_cons.mp hnd
    rcases List.mem_cons.mp hmem with he | hmem2
    · subst he
      have hnin2 : sid ∉ rest := hnin
      constructor
      · intro hlast
        rw [List.foldl_cons,
          foldMD_get_ne i rest sid hnin2 (markDeleted i st sid)]
        rw [mD_self_write i st sid (by rw [dictMem, hget]; rfl) hlast,
          save_status, hget]
        simp only [Option.getD_some]
        exact dictGet?_insert_self _ _ _
      · intro hlast
        rw [List.foldl_cons, mD_self_skip i st sid hlast,
          foldMD_get_ne i rest sid hnin2 st]
        exact hget
    · have hne : d ≠ sid := by
        intro he
        subst he
        exact hnin hmem2
      have hget2 : dictGet? (markDeleted i st d).submissions sid =
          dictGet? st.submissions sid := mD_get_ne i st d sid hne
      have hlast2 : get_last_status (markDeleted i st d).submissions sid =
          get_last_status st.submissions sid := get_last_congr _ _ _ hget2
      obtain ⟨ih1, ih2⟩ := ih (markDeleted i st d) sid h hnd2 hmem2
        (hget2.trans hget)
      constructor
      · intro hlast
        rw [List.foldl_cons]
        exact ih1 (by rw [hlast2]; exact hlast)
      · intro hlast
        rw [List.foldl_cons]
        exact ih2 (by rw [hlast2]; exact hlast)

theorem get_last_append_max (subs : Dict (Dict StatusRec)) (sid : String)
    (h : Dict StatusRec) (W : Nat) (v : StatusRec)
    (hget : dictGet? subs sid = some (h ++ [(toDecStr (W + 1), v)]))
    (hkeys : ∀ k ∈ dictKeys h, ∃ j, 1 ≤ j ∧ j ≤ W ∧ k = toDecStr j) :
    get_last_status subs sid = v := by
  have hfresh : dictGet? h (toDecStr (W + 1)) = none := by
    rw [dictGet?_eq_none]
    intro hmem
    obtain ⟨j, hj1, hj2, hje⟩ := hkeys _ hmem
    have := toDecStr_inj _ _ hje.symm
    omega
  have hlookup : dictGet? (h ++ [(toDecStr (W + 1), v)])
      (toDecStr (W + 1)) = some v := by
    rw [dictGet?_append_right _ _ _ hfresh]
    simp [dictGet?]
  have hne : h ++ [(toDecStr (W + 1), v)] ≠ [] := by simp
  rw [get_last_status]
  simp only [hget, Option.getD_some]
  rw [if_neg (by simpa using hne)]
  have hkeys2 : dictKeys (h ++ [(toDecStr (W + 1), v)]) =
      dictKeys h ++ [toDecStr (W + 1)] := by
    rw [dictKeys, List.map_append]
    rfl
  rcases hk : dictKeys h with _ | ⟨k0, ks⟩
  · rw [hkeys2, hk]
    simp only [List.nil_append]
    simp [max_int_num, hlookup]
  · have hcanon : ∀ s ∈ k0 :: (ks ++ [toDecStr (W + 1)]), isCanonicalDec s := by
      intro s hs
      rcases List.mem_cons.mp hs with hh | hh
      · obtain ⟨j, hj1, _, hje⟩ := hkeys k0 (by rw [hk]; simp)
        exact ⟨j, hj1, (hje ▸ hh ▸ rfl)⟩
      · rcases List.mem_append.mp hh with hh2 | hh2
        · obtain ⟨j, hj1, _, hje⟩ := hkeys s (by rw [hk]; simp [hh2])
          exact ⟨j, hj1, hje.symm⟩
        · simp at hh2
          subst hh2
          exact ⟨W + 1, by omega, rfl⟩
    obtain ⟨hm, hmax⟩ := max_int_num_canon (ks ++ [toDecStr (W + 1)]) k0 ""
      hcanon
    have hWmem : toDecStr (W + 1) ∈ k0 :: (ks ++ [toDecStr (W + 1)]) := by
      simp
    have hle := hmax _ hWmem
    rw [strVal_toDecStr] at hle
    have hcons : dictKeys (h ++ [(toDecStr (W + 1), v)]) =
        k0 :: (ks ++ [toDecStr (W + 1)]) := by
      rw [hkeys2, hk]
      rfl
    have hsplit : max_int_num (k0 :: (ks ++ [toDecStr (W + 1)])) "" ∈
        dictKeys h ∨
        max_int_num (k0 :: (ks ++ [toDecStr (W + 1)])) "" =
          toDecStr (W + 1) := by
      rcases List.mem_cons.mp hm with hh | hh
      · refine Or.inl ?_
        rw [hk]
        simp [hh]
      · rcases List.mem_append.mp hh with hh2 | hh2
        · refine Or.inl ?_
          rw [hk]
          simp [hh2]
        · refine Or.inr ?_
          simpa using hh2
    have hmaxeq : max_int_num (dictKeys (h ++ [(toDecStr (W + 1), v)])) ""
        = toDecStr (W + 1) := by
      rw [hcons]
      rcases hsplit with hh | hh
      · exfalso
        obtain ⟨j, hj1, hj2, hje⟩ := hkeys _ hh
        have hv2 := congrArg strVal hje
        rw [strVal_toDecStr] at hv2
        omega
      · exact hh
    rw [hmaxeq, hlookup]
    rfl

/-- C7: deletion is recorded exactly once — for a submission present in a
well-formed prior history and absent from the live fetch, a call whose last
recorded status is not `{deleted, null}` appends exactly one
`{deleted, null}` entry at the freshly allocated run index (leaving the rest
of its history untouched) and its last status becomes `{deleted, null}`; a
call whose last recorded status is already `{deleted, null}` writes nothing
for it. -/
theorem spec_c7_deleted_once (W : Nat) (cached : AggData)
    (subs : List Submission) (ts : String) (sid : String)
    (h : Dict StatusRec) (hWF : WFAgg W cached)
    (hget : dictGet? cached.submissions sid = some h)
    (habs : sid ∉ subs.map Submission.id) :
    (get_last_status cached.submissions sid ≠ ⟨"deleted", none⟩ →
      dictGet? (check_assignment_updates subs ts
          (some cached)).data.submissions sid =
        some (h ++ [(toDecStr (W + 1), ⟨"deleted", none⟩)]) ∧
      get_last_status (check_assignment_updates subs ts
          (some cached)).data.submissions sid = ⟨"deleted", none⟩) ∧
    (get_last_status cached.submissions sid = ⟨"deleted", none⟩ →
      dictGet? (check_assignment_updates subs ts
          (some cached)).data.submissions sid = some h) := by
  have hids : ∀ s ∈ subs, s.id ≠ sid := by
    intro s hs he
    exact habs (he ▸ List.mem_map_of_mem Submission.id hs)
  have hidxN : nextIndexNat cached.runs = W + 1 :=
    nextIndexNat_of_keys W cached.runs hWF.1
  have hkeysh : ∀ k ∈ dictKeys h, ∃ j, 1 ≤ j ∧ j ≤ W ∧ k = toDecStr j := by
    intro k hk
    obtain ⟨q, hq, hqe⟩ := List.mem_map.mp hk
    have hp := dictGet?_some_mem _ _ _ hget
    have := hWF.2.2 (sid, h) hp q hq
    rw [hWF.1] at this
    obtain ⟨j, hj, hje⟩ := List.mem_map.mp this
    have hjr := List.mem_range'_1.mp hj
    exact ⟨j, hjr.1, by omega, by rw [← hqe, ← hje]⟩
  have hfresh : dictGet? h (toDecStr (nextIndexNat cached.runs)) = none := by
    rw [dictGet?_eq_none]
    intro hmem
    obtain ⟨j, hj1, hj2, hje⟩ := hkeysh _ hmem
    rw [hidxN] at hje
    have := toDecStr_inj _ _ hje.symm
    omega
  -- state after the live loop
  have hget1 : dictGet? (subs.foldl
      (processSubmission (toDecStr (nextIndexNat cached.runs)))
      ⟨cached.submissions, false, dictKeys cached.submissions,
        0, 0, 0, 0, []⟩).submissions sid = some h := by
    rw [foldPS_get_ne _ subs sid hids]
    exact hget
  have hlast1 : get_last_status (subs.foldl
      (processSubmission (toDecStr (nextIndexNat cached.runs)))
      ⟨cached.submissions, false, dictKeys cached.submissions,
        0, 0, 0, 0, []⟩).submissions sid =
      get_last_status cached.submissions sid := by
    apply get_last_congr
    rw [foldPS_get_ne _ subs sid hids]
  have hdel1 : (subs.foldl
      (processSubmission (toDecStr (nextIndexNat cached.runs)))
      ⟨cached.submissions, false, dictKeys cached.submissions,
        0, 0, 0, 0, []⟩).deleted =
      (dictKeys cached.submissions).filter
        (fun x => !(subs.any (fun s2 => s2.id == x))) := by
    rw [foldPS_deleted]
  have hsidkeys : sid ∈ dictKeys cached.submissions := by
    by_contra hc
    rw [← dictGet?_eq_none] at hc
    rw [hc] at hget
    exact absurd hget (by simp)
  have hsiddel : sid ∈ (subs.foldl
      (processSubmission (toDecStr (nextIndexNat cached.runs)))
      ⟨cached.submissions, false, dictKeys cached.submissions,
        0, 0, 0, 0, []⟩).deleted := by
    rw [hdel1]
    apply List.mem_filter.mpr
    refine ⟨hsidkeys, ?_⟩
    simp only [Bool.not_eq_true', List.any_eq_false]
    intro s hs
    simp [hids s hs]
  have hnd1 : (subs.foldl
      (processSubmission (toDecStr (nextIndexNat cached.runs)))
      ⟨cached.submissions, false, dictKeys cached.submissions,
        0, 0, 0, 0, []⟩).deleted.Nodup := by
    rw [hdel1]
    exact hWF.2.1.filter _
  obtain ⟨hone1, hone2⟩ := foldMD_once (toDecStr (nextIndexNat cached.runs))
    (subs.foldl (processSubmission (toDecStr (nextIndexNat cached.runs)))
      ⟨cached.submissions, false, dictKeys cached.submissions,
        0, 0, 0, 0, []⟩).deleted
    (subs.foldl (processSubmission (toDecStr (nextIndexNat cached.runs)))
      ⟨cached.submissions, false, dictKeys cached.submissions,
        0, 0, 0, 0, []⟩) sid h hnd1 hsiddel hget1
  have hconn : (check_assignment_updates subs ts
      (some cached)).data.submissions =
      ((subs.foldl (processSubmission (toDecStr (nextIndexNat cached.runs)))
        ⟨cached.submissions, false, dictKeys cached.submissions,
          0, 0, 0, 0, []⟩).deleted.foldl
        (markDeleted (toDecStr (nextIndexNat cached.runs)))
        (subs.foldl (processSubmission (toDecStr (nextIndexNat cached.runs)))
          ⟨cached.submissions, false, dictKeys cached.submissions,
            0, 0, 0, 0, []⟩)).submissions := by
    rw [check_data_submissions]
    simp only [trackRun]
  have happend : dictInsert h (toDecStr (nextIndexNat cached.runs))
      ⟨"deleted", none⟩ =
      h ++ [(toDecStr (W + 1), ⟨"deleted", none⟩)] := by
    rw [dictInsert_fresh_append _ _ _ hfresh, hidxN]
  constructor
  · intro hlast
    have hres := hone1 (by rw [hlast1]; exact hlast)
    rw [happend] at hres
    rw [hconn]
    refine ⟨hres, ?_⟩
    exact get_last_append_max _ sid h W ⟨"deleted", none⟩ hres hkeysh
  · intro hlast
    rw [hconn]
    exact hone2 (by rw [hlast1]; exact hlast)

/-- C7 witness: a submission recorded on run 1 and absent on run 2 ends
with exactly the one appended `deleted` entry. -/
theorem spec_c7_deleted_once_witness :
    dictGet? (check_assignment_updates [] "t2"
        (some (check_assignment_updates [⟨"7", false, none⟩] "t1"
          none).data)).data.submissions "7" =
      some ([(toDecStr 1, ⟨"unclaimed", none⟩)] ++
        [(toDecStr (1 + 1), ⟨"deleted", none⟩)]) :=
  ((spec_c7_deleted_once 1
      (check_assignment_updates [⟨"7", false, none⟩] "t1" none).data
      [] "t2" "7" [(toDecStr 1, ⟨"unclaimed", none⟩)]
      (by unfold WFAgg; decide) (by decide) (by decide)).1 (by decide)).1

theorem mem_setAdd (l : List (Option String)) (x g : Option String)
    (h : g ∈ setAdd l x) : g ∈ l ∨ g = x := by
  rw [setAdd] at h
  split at h
  · exact Or.inl h
  · rcases List.mem_append.mp h with h2 | h2
    · exact Or.inl h2
    · simp at h2
      exact Or.inr h2

theorem pS_graders (i : String) (st : TrackState) (s : Submission)
    (g : Option String)
    (h : g ∈ (processSubmission i st s).graders_finalized) :
    g ∈ st.graders_finalized ∨ (s.isFinalized = true ∧ s.grader = g) := by
  revert h
  simp only [processSubmission]
  repeat' split
  all_goals intro h
  all_goals simp_all
  all_goals rcases mem_setAdd _ _ _ h with h2 | h2
  all_goals simp_all

theorem mD_graders (i : String) (st : TrackState) (sid : String) :
    (markDeleted i st sid).graders_finalized = st.graders_finalized :=
  (mD_counts i st sid).2.2.2.2.2

theorem foldMD_graders (i : String) (dels : List String) :
    ∀ st : TrackState,
      (dels.foldl (markDeleted i) st).graders_finalized =
        st.graders_finalized := by
  induction dels with
  | nil => intro st; rfl
  | cons d rest ih =>
    intro st
    rw [List.foldl_cons, ih, mD_graders]

theorem foldPS_graders (i : String) (subs : List Submission) :
    ∀ (st : TrackState) (g : Option String),
      g ∈ (subs.foldl (processSubmission i) st).graders_finalized →
      g ∈ st.graders_finalized ∨
        ∃ s ∈ subs, s.isFinalized = true ∧ s.grader = g := by
  induction subs with
  | nil => intro st g h; exact Or.inl h
  | cons s rest ih =>
    intro st g h
    rcases ih (processSubmission i st s) g h with h2 | ⟨s2, hs2, h3⟩
    · rcases pS_graders i st s g h2 with h3 | h3
      · exact Or.inl h3
      · exact Or.inr ⟨s, List.mem_cons_self _ _, h3⟩
    · exact Or.inr ⟨s2, List.mem_cons_of_mem _ hs2, h3⟩

theorem check_graders_finalized (subs : List Submission) (ts : String)
    (copt : Option AggData) (g : Option String)
    (h : g ∈ (check_assignment_updates subs ts copt).graders_finalized) :
    ∃ s ∈ subs, s.isFinalized = true ∧ s.grader = g := by
  have h2 : g ∈ (trackRun subs copt).1.graders_finalized := h
  have h3 : g ∈ (subs.foldl (processSubmission (trackRun subs copt).2)
      ⟨subsOf copt, false,
        (match copt with
         | some c => dictKeys c.submissions
         | none => []), 0, 0, 0, 0, []⟩).graders_finalized := by
    cases copt with
    | none =>
      have := h2
      rw [trackRun] at this
      rw [foldMD_graders] at this
      exact this
    | some c =>
      have := h2
      rw [trackRun] at this
      rw [foldMD_graders] at this
      exact this
  rcases foldPS_graders _ subs _ g h3 with h4 | h4
  · simp at h4
  · exact h4

theorem graders_mapM_ok (l : List (Option String))
    (h : ∀ g ∈ l, g ≠ none) :
    ∃ r, l.mapM (fun g =>
      match g with
      | none =>
        (Except.error "TypeError: NoneType is not subscriptable" :
          Except String String)
      | some name => Except.ok ("`" ++ stripDomain name ++ "`")) =
      Except.ok r := by
  induction l with
  | nil => exact ⟨[], rfl⟩
  | cons g gs ih =>
    obtain ⟨r, hr⟩ := ih (fun g2 hg2 => h g2 (List.mem_cons_of_mem _ hg2))
    rcases hg : g with _ | name
    · exact absurd hg (h g (List.mem_cons_self _ _))
    · refine ⟨("`" ++ stripDomain name ++ "`") :: r, ?_⟩
      rw [List.mapM_cons, hr]
      rfl

theorem build_notification_msg_ok (assignment : String)
    (finalized drafts : Nat) (unclaimed : Int)
    (graders : List (Option String)) (h : ∀ g ∈ graders, g ≠ none) :
    ∃ m, build_notification_msg assignment finalized drafts unclaimed
      graders = Except.ok m := by
  rw [build_notification_msg]
  split
  · exact ⟨_, rfl⟩
  · obtain ⟨r, hr⟩ := graders_mapM_ok graders h
    rw [hr]
    exact ⟨_, rfl⟩

theorem courseAssignmentsDict_mem (l : List LiveAssignment) :
    ∀ (acc : Dict (List Submission)) (p : String × List Submission),
      p ∈ l.foldl (fun d a => dictInsert d a.name a.submissions) acc →
      p ∈ acc ∨ ∃ la ∈ l, p.1 = la.name ∧ p.2 = la.submissions := by
  induction l with
  | nil => intro acc p h; exact Or.inl h
  | cons a rest ih =>
    intro acc p h
    rcases ih _ p h with h2 | ⟨la, hla, h3⟩
    · rcases mem_dictInsert_strong _ _ _ _ h2 with h3 | h3
      · exact Or.inl h3
      · exact Or.inr ⟨a, List.mem_cons_self _ _, h3⟩
    · exact Or.inr ⟨la, List.mem_cons_of_mem _ hla, h3⟩

theorem courseGo_ok (send : String → Option String)
    (cas : Dict (List Submission)) (labels : Nat → String)
    (hsubs : ∀ name subsl, dictGet? cas name = some subsl →
      ∀ s ∈ subsl, s.isFinalized = true → s.grader ≠ none) :
    ∀ (assignments : List ConfigAssignment) (data : Dict AggData)
      (changed : Bool) (errors : List String) (k : Nat),
      ∃ res, courseGo send cas labels assignments data changed errors k =
        Except.ok res := by
  intro assignments
  induction assignments with
  | nil => intro data changed errors k; exact ⟨_, rfl⟩
  | cons a rest ih =>
    intro data changed errors k
    rw [courseGo]
    split
    · exact ih data changed errors k
    · rcases hca : dictGet? cas a.name with _ | subsl
      · exact ih data changed _ k
      · by_cases hch : (check_assignment_updates subsl (labels k)
            (dictGet? data a.name)).changed = true
        · have hgr : ∀ g ∈ (check_assignment_updates subsl (labels k)
              (dictGet? data a.name)).graders_finalized, g ≠ none := by
            intro g hg
            obtain ⟨s, hs, hfin, hgrad⟩ :=
              check_graders_finalized subsl (labels k)
                (dictGet? data a.name) g hg
            rw [← hgrad]
            exact hsubs a.name subsl hca s hs hfin
          obtain ⟨m, hm⟩ := build_notification_msg_ok a.name
            (check_assignment_updates subsl (labels k)
              (dictGet? data a.name)).data.finalized
            (check_assignment_updates subsl (labels k)
              (dictGet? data a.name)).data.drafts
            (((check_assignment_updates subsl (labels k)
              (dictGet? data a.name)).data.total : Int) -
              (((check_assignment_updates subsl (labels k)
                (dictGet? data a.name)).data.finalized : Int) +
                ((check_assignment_updates subsl (labels k)
                  (dictGet? data a.name)).data.drafts : Int)))
            (check_assignment_updates subsl (labels k)
              (dictGet? data a.name)).graders_finalized hgr
          rcases hsend : send m with _ | err
          · obtain ⟨res, hres⟩ := ih (dictInsert data a.name
              (check_assignment_updates subsl (labels k)
                (dictGet? data a.name)).data) true errors (k + 1)
            refine ⟨res, ?_⟩
            simp only [hch, Bool.not_true, Bool.false_eq_true, if_false,
              hm, hsend]
            exact hres
          · obtain ⟨res, hres⟩ := ih (dictInsert data a.name
              (check_assignment_updates subsl (labels k)
                (dictGet? data a.name)).data) true
              (errors ++ ["Slack API error: " ++ err]) (k + 1)
            refine ⟨res, ?_⟩
            simp only [hch, Bool.not_true, Bool.false_eq_true, if_false,
              hm, hsend]
            exact hres
        · have hch2 : (check_assignment_updates subsl (labels k)
              (dictGet? data a.name)).changed = false := by
            simpa using hch
          obtain ⟨res, hres⟩ := ih (dictInsert data a.name
            (check_assignment_updates subsl (labels k)
              (dictGet? data a.name)).data) changed errors (k + 1)
          refine ⟨res, ?_⟩
          simp only [hch2, Bool.not_false, if_true]
          exact hres

theorem dictKeys_mem_insert {α : Type} (d : Dict α) (k2 : String) (v : α)
    (k : String) (h : k ∈ dictKeys d) : k ∈ dictKeys (dictInsert d k2 v) := by
  by_cases hm : k2 ∈ dictKeys d
  · rw [dictKeys_insert_mem _ _ _ hm]
    exact h
  · rw [dictKeys_insert_fresh _ _ _ hm]
    exact List.mem_append_left _ h

theorem dictKeys_self_mem_insert {α : Type} (d : Dict α) (k : String)
    (v : α) : k ∈ dictKeys (dictInsert d k v) := by
  by_cases hm : k ∈ dictKeys d
  · rw [dictKeys_insert_mem _ _ _ hm]
    exact hm
  · rw [dictKeys_insert_fresh _ _ _ hm]
    simp

theorem processGo_ok (lookup : String → String → List Course)
    (send : String → String → Option String) (labels : Nat → Nat → String)
    (channels : Dict String)
    (hg : ∀ n per, ∀ crs ∈ lookup n per, ∀ la ∈ crs.assignments,
      ∀ s ∈ la.submissions, s.isFinalized = true → s.grader ≠ none) :
    ∀ config : List (String × CourseInfo),
      (∀ p ∈ config, (p.2).channel ∈ dictKeys channels) →
      ∀ (i : Nat) (data : Dict (Dict AggData)) (changed : Bool)
        (errors : List String),
      ∃ d2 c2 e2,
        processGo lookup send labels channels config i data changed errors =
          Except.ok (d2, c2, e2) ∧
        (∀ k ∈ dictKeys data, k ∈ dictKeys d2) ∧
        (∀ p ∈ config, lookup (p.2).course (p.2).period ≠ [] →
          p.1 ∈ dictKeys d2) := by
  intro config
  induction config with
  | nil =>
    intro _ i data changed errors
    exact ⟨data, changed, errors, rfl, fun k hk => hk, by simp⟩
  | cons pc rest ih =>
    intro hch i data changed errors
    obtain ⟨cp, ci⟩ := pc
    rw [processGo]
    rcases hlk : lookup ci.course ci.period with _ | ⟨course, more⟩
    · obtain ⟨d2, c2, e2, heq, hmono, hconf⟩ :=
        ih (fun p hp => hch p (List.mem_cons_of_mem _ hp)) (i + 1) data
          changed (errors ++ ["Course could not be found: " ++ cp])
      refine ⟨d2, c2, e2, heq, hmono, ?_⟩
      intro p hp hne
      rcases List.mem_cons.mp hp with he | hmem
      · subst he
        exact absurd hlk hne
      · exact hconf p hmem hne
    · obtain ⟨chid, hchid⟩ := dictGet?_isSome_of_mem channels ci.channel
        (hch (cp, ci) (List.mem_cons_self _ _))
      have hsubs : ∀ name subsl,
          dictGet? (courseAssignmentsDict course.assignments) name =
            some subsl →
          ∀ s ∈ subsl, s.isFinalized = true → s.grader ≠ none := by
        intro name subsl hgot s hs hfin
        have hmem := dictGet?_some_mem _ _ _ hgot
        rcases courseAssignmentsDict_mem course.assignments [] _ hmem with
          h2 | ⟨la, hla, _, h3⟩
        · simp at h2
        · have hcourse : course ∈ lookup ci.course ci.period := by
            rw [hlk]
            exact List.mem_cons_self _ _
          have h3b : subsl = la.submissions := h3
          exact hg ci.course ci.period course hcourse la hla s
            (h3b ▸ hs) hfin
      obtain ⟨res, hres⟩ := courseGo_ok (send chid)
        (courseAssignmentsDict course.assignments) (labels i) hsubs
        ci.assignments ((dictGet? data cp).getD []) false [] 0
      obtain ⟨cdata, cchanged, cerrs⟩ := res
      obtain ⟨d2, c2, e2, heq, hmono, hconf⟩ :=
        ih (fun p hp => hch p (List.mem_cons_of_mem _ hp)) (i + 1)
          (dictInsert data cp cdata) (changed || cchanged)
          (errors ++ cerrs)
      refine ⟨d2, c2, e2, ?_, ?_, ?_⟩
      · have hcc : check_course_updates (send chid)
            (courseAssignmentsDict course.assignments) ci.assignments
            (labels i) (dictGet? data cp) =
            Except.ok (cdata, cchanged, cerrs) := by
          rw [check_course_updates]
          exact hres
        simp only [hchid, hcc]
        exact heq
      · intro k hk
        exact hmono k (dictKeys_mem_insert data cp cdata k hk)
      · intro p hp hne
        rcases List.mem_cons.mp hp with he | hmem
        · subst he
          exact hmono cp (dictKeys_self_mem_insert data cp cdata)
        · exact hconf p hmem hne

/-- C4 amended: provided every finalized live submission carries a non-null
grader (so message building cannot hit the `None`-slicing `TypeError`), the
reconciliation loop over any courses, assignments, tracker results and
messaging outcomes never raises: course-not-found, assignment-not-found and
delivery failures degrade to collected error strings and processing
continues to a normal return. -/
theorem spec_c4_amended (lookup : String → String → List Course)
    (send : String → String → Option String) (labels : Nat → Nat → String)
    (config : List (String × CourseInfo)) (channels : Dict String)
    (cached : Dict (Dict AggData))
    (hch : ∀ p ∈ config, (p.2).channel ∈ dictKeys channels)
    (hg : ∀ n per, ∀ crs ∈ lookup n per, ∀ la ∈ crs.assignments,
      ∀ s ∈ la.submissions, s.isFinalized = true → s.grader ≠ none) :
    ∃ res, process_courses lookup send labels config channels cached =
      Except.ok res := by
  obtain ⟨d2, c2, e2, heq, _, _⟩ :=
    processGo_ok lookup send labels channels hg config hch 0 cached false []
  exact ⟨(d2, c2, e2), heq⟩

/-- C4 amended witness: a concrete two-course run (one course missing from
the lookup, every delivery failing) returns normally. -/
theorem spec_c4_amended_witness :
    ∃ res, process_courses (fun _ _ => [cexCourseB]) (fun _ _ => some "E")
      (fun _ _ => "t") cexConfig cexChannels [] = Except.ok res := by
  apply spec_c4_amended
  · intro p hp
    rcases List.mem_cons.mp hp with he | hp2
    · subst he
      decide
    · rcases List.mem_cons.mp hp2 with he | hp3
      · subst he
        decide
      · simp at hp3
  · intro n per crs hcrs la hla s hs hfin
    simp at hcrs
    subst hcrs
    rw [cexCourseB] at hla
    simp at hla
    subst hla
    simp at hs

/-- C3 amended: whether anything is persisted is gated only by the global
`changed` flag; when it is, the snapshot write receives the whole merged
dict, which contains an entry for every configured course that was found —
changed or not.  There is no per-course gating. -/
theorem spec_c3_amended (lookup : String → String → List Course)
    (send : String → String → Option String) (labels : Nat → Nat → String)
    (config : List (String × CourseInfo)) (channels : Dict String)
    (cached : Dict (Dict AggData))
    (hch : ∀ p ∈ config, (p.2).channel ∈ dictKeys channels)
    (hg : ∀ n per, ∀ crs ∈ lookup n per, ∀ la ∈ crs.assignments,
      ∀ s ∈ la.submissions, s.isFinalized = true → s.grader ≠ none) :
    ∃ data changed errs,
      process_courses lookup send labels config channels cached =
        Except.ok (data, changed, errs) ∧
      (∀ p ∈ config, lookup (p.2).course (p.2).period ≠ [] →
        p.1 ∈ dictKeys data) ∧
      main_persisted lookup send labels config channels cached =
        (if changed then some data else none) := by
  obtain ⟨d2, c2, e2, heq, _, hconf⟩ :=
    processGo_ok lookup send labels channels hg config hch 0 cached false []
  refine ⟨d2, c2, e2, heq, hconf, ?_⟩
  rw [main_persisted, process_courses] at *
  rw [heq]

/-- C3 amended witness: the amended theorem at the concrete two-course
input of the counterexample. -/
theorem spec_c3_amended_witness :
    ∃ data changed errs,
      process_courses cexLookup (fun _ _ => none) (fun _ _ => "t") cexConfig
        cexChannels cexCached = Except.ok (data, changed, errs) ∧
      (∀ p ∈ cexConfig,
        cexLookup (p.2).course (p.2).period ≠ [] → p.1 ∈ dictKeys data) ∧
      main_persisted cexLookup (fun _ _ => none) (fun _ _ => "t") cexConfig
        cexChannels cexCached = (if changed then some data else none) := by
  apply spec_c3_amended
  · intro p hp
    rcases List.mem_cons.mp hp with he | hp2
    · subst he
      decide
    · rcases List.mem_cons.mp hp2 with he | hp3
      · subst he
        decide
      · simp at hp3
  · intro n per crs hcrs la hla s hs hfin
    rw [cexLookup] at hcrs
    by_cases hn : n = "A"
    · rw [if_pos hn] at hcrs
      simp at hcrs
      subst hcrs
      rw [cexCourseA] at hla
      simp at hla
      subst hla
      simp at hs
      subst hs
      simp at hfin
    · rw [if_neg hn] at hcrs
      simp at hcrs
      subst hcrs
      rw [cexCourseB] at hla
      simp at hla
      subst hla
      simp at hs

/-- C3 counterexample: course B's single assignment reports no change
against its cache, yet course B's data is handed to the snapshot write
(because course A changed) — refuting per-course persistence gating. -/
theorem spec_c3_counterexample :
    (check_assignment_updates [] "t" (some emptyAgg)).changed = false ∧
      (main_persisted cexLookup (fun _ _ => none) (fun _ _ => "t") cexConfig
        cexChannels cexCached).isSome = true ∧
      (match main_persisted cexLookup (fun _ _ => none) (fun _ _ => "t")
          cexConfig cexChannels cexCached with
       | none => false
       | some d => dictGet? d "B P" == some [("hw", emptyAgg)]) = true := by
  refine ⟨rfl, rfl, ?_⟩
  decide
